import Mathlib

/-!
# A shallow embedding of `ls-v1.6.0.c`

The directory lister is embedded function by function.  Conventions:

* a C string is the list of its bytes before the terminating NUL (`Name`);
* `int` quantities (name lengths, widths, counts) are natural numbers: a name
  has at most 255 bytes, a terminal at most 65535 columns, so no `int`
  computation of the program wraps; the only subtraction that can go below
  zero, `col_width - len`, is done over `Int`;
* standard output is the sequence of output calls the program makes
  (`Out`), and `render` turns such a sequence into bytes; where the program
  hands a null pointer to a library function that reads through it, the
  sequence has the marker `Out.killed`: the process dies there, and the calls
  listed after the marker are those it would have gone on to make;
* `long` and `unsigned long` have 64 bits (`nlink_t` is `unsigned long`), and
  `off_t` and `long long` are both signed 64-bit types, so the cast
  `(long long)st.st_size` changes no value;
* the file system, the terminal and the user database are inputs
  (`DirStream`, `Env`);
* heap allocation (`malloc`, `realloc`, `strdup`) is assumed to succeed, paths
  are assumed shorter than `PATH_MAX`, and `readdir` is assumed to report every
  child and then end the stream without an error of its own.
-/

namespace Ls

/-! ## C strings -/

/-- A C string, as the list of its bytes before the terminating NUL. -/
abbrev Name := List Nat

/-- The bytes of an ASCII literal. -/
def cstr (s : String) : Name := s.toList.map Char.toNat

/-- The C library `strcmp`, up to the sign of its result: bytes are compared
as unsigned values, and a string that ends first is the smaller one. -/
def strcmp : Name → Name → Int
  | [], [] => 0
  | [], _ :: _ => -1
  | _ :: _, [] => 1
  | a :: as, b :: bs => if a = b then strcmp as bs else if a < b then -1 else 1

/-- The C library `tolower` in the "C" locale (the program never calls
`setlocale`): only `A`..`Z` are mapped. -/
def tolower (c : Nat) : Nat := if 65 ≤ c ∧ c ≤ 90 then c + 32 else c

/-- The C library `strcasecmp`, up to the sign of its result. -/
def strcasecmp : Name → Name → Int
  | [], [] => 0
  | [], _ :: _ => -1
  | _ :: _, [] => 1
  | a :: as, b :: bs =>
    if tolower a = tolower b then strcasecmp as bs
    else if tolower a < tolower b then -1 else 1

/-- The C library `strrchr`: the suffix that starts at the last occurrence of
`c`, or `none` (NULL) when `c` does not occur. -/
def strrchr : Name → Nat → Option Name
  | [], _ => none
  | a :: as, c =>
    match strrchr as c with
    | some s => some s
    | none => if a = c then some (a :: as) else none

/-- The C library `strstr`: the suffix that starts at the first occurrence of
`needle`, or `none` (NULL) when there is none. -/
def strstr : Name → Name → Option Name
  | [], needle => if needle = [] then some [] else none
  | a :: as, needle =>
    if needle.isPrefixOf (a :: as) then some (a :: as) else strstr as needle

/-! ## File modes

The constants and type tests of `<sys/stat.h>`, with the values they have on
Linux.  A mode is the value of a `mode_t`. -/

def S_IFMT : Nat := 0o170000
def S_IFSOCK : Nat := 0o140000
def S_IFLNK : Nat := 0o120000
def S_IFREG : Nat := 0o100000
def S_IFBLK : Nat := 0o060000
def S_IFDIR : Nat := 0o040000
def S_IFCHR : Nat := 0o020000
def S_IFIFO : Nat := 0o010000
def S_IRUSR : Nat := 0o400
def S_IWUSR : Nat := 0o200
def S_IXUSR : Nat := 0o100
def S_IRGRP : Nat := 0o040
def S_IWGRP : Nat := 0o020
def S_IXGRP : Nat := 0o010
def S_IROTH : Nat := 0o004
def S_IWOTH : Nat := 0o002
def S_IXOTH : Nat := 0o001

def S_ISDIR (m : Nat) : Bool := (m &&& S_IFMT) == S_IFDIR
def S_ISREG (m : Nat) : Bool := (m &&& S_IFMT) == S_IFREG
def S_ISLNK (m : Nat) : Bool := (m &&& S_IFMT) == S_IFLNK
def S_ISCHR (m : Nat) : Bool := (m &&& S_IFMT) == S_IFCHR
def S_ISBLK (m : Nat) : Bool := (m &&& S_IFMT) == S_IFBLK
def S_ISFIFO (m : Nat) : Bool := (m &&& S_IFMT) == S_IFIFO
def S_ISSOCK (m : Nat) : Bool := (m &&& S_IFMT) == S_IFSOCK

/-! ## ANSI colour codes -/

def ANSI_RESET : Name := 27 :: cstr "[0m"
def ANSI_BLUE : Name := 27 :: cstr "[0;34m"
def ANSI_GREEN : Name := 27 :: cstr "[0;32m"
def ANSI_RED : Name := 27 :: cstr "[0;31m"
def ANSI_MAGENTA : Name := 27 :: cstr "[0;35m"
def ANSI_REVERSE : Name := 27 :: cstr "[7m"

/-! ## Data model -/

/-- The `FileEntry` struct; `is_symlink` is the truth value of the C `int`. -/
structure FileEntry where
  name : Name
  mode : Nat
  size : Int
  is_symlink : Bool
  deriving DecidableEq, Repr

/-- The fields of `struct stat` the program reads. -/
structure Stat where
  st_mode : Nat
  st_nlink : Nat
  st_uid : Nat
  st_gid : Nat
  st_size : Int
  st_mtime : Int
  deriving DecidableEq, Repr

/-- One record returned by `readdir`, with the outcome of the `lstat` call the
collection loop makes on it (`none` when `lstat` returns -1). -/
structure Dirent where
  d_name : Name
  lstat : Option Stat
  deriving DecidableEq, Repr

/-- What `opendir` returns for a path: `null` when the directory cannot be
opened; otherwise the records `readdir` yields, the outcome of the display-time
`lstat` on each child name, and what `opendir` returns on each child path. -/
inductive DirStream where
  | null : DirStream
  | dir (readdir : List Dirent) (lstat : Name → Option Stat)
      (opendir : Name → DirStream) : DirStream

/-- The process environment apart from the file system: the outcome of the
`TIOCGWINSZ` ioctl (`none` when it returns -1, else `ws_col`), the user and
group databases, and `localtime` on a modification time: `none` when it
returns NULL (the year does not fit an `int`), otherwise the bytes that
`strftime` with the format `"%b %e %H:%M"` writes for the broken-down time. -/
structure Env where
  ioctl : Option Nat
  getpwuid : Nat → Option Name
  getgrgid : Nat → Option Name
  localtime : Int → Option Name

/-- One output call on standard output, or the point where the process dies. -/
inductive Out where
  /-- The call `printf("Directory listing of %s:\n", path)`. -/
  | listing_of (path : Name) : Out
  /-- The call `printf("%s:\n", dir)`. -/
  | header (dir : Name) : Out
  /-- The calls `printf("\n")` and `puts("")`. -/
  | newline : Out
  /-- The call `printf("%s %2ld %s %s %6lld %s ", ...)` of the long mode;
  `nlink` is the `long` and `size` the `long long` handed to it. -/
  | long_fields (perms : Name) (nlink : Int) (owner group : Name) (size : Int)
      (timebuf : Name) : Out
  /-- The call `print_colored_padded(&e, col_width)`. -/
  | cell (e : FileEntry) (col_width : Int) : Out
  /-- The call `strftime(timebuf, sizeof(timebuf), "%b %e %H:%M", tm)` with
  `tm` the null pointer: `strftime` reads through it and the process is killed,
  so none of the calls listed after this marker is made. -/
  | killed : Out
  deriving DecidableEq, Repr

/-- One message on the error stream. -/
inductive Err where
  /-- The call `fprintf(stderr, "Cannot open directory: %s\n", dir)`. -/
  | cannot_open (dir : Name) : Err
  /-- The call `perror(msg)`. -/
  | perror (msg : Name) : Err
  deriving DecidableEq, Repr

/-- What a run writes: the calls on standard output (with the marker
`Out.killed` where the process dies) and on the error stream, each in order. -/
structure Output where
  stdout : List Out
  stderr : List Err
  deriving DecidableEq, Repr

/-- Sequencing of two pieces of output. -/
def Output.append (a b : Output) : Output :=
  ⟨a.stdout ++ b.stdout, a.stderr ++ b.stderr⟩

/-! ## Helper functions of the program -/

/-- The function `mode_to_str`: the ten characters written into `str`. -/
def mode_to_str (mode : Nat) : Name :=
  [ if S_ISDIR mode then 100 else
    if S_ISLNK mode then 108 else
    if S_ISCHR mode then 99 else
    if S_ISBLK mode then 98 else
    if S_ISFIFO mode then 112 else
    if S_ISSOCK mode then 115 else 45,
    if mode &&& S_IRUSR ≠ 0 then 114 else 45,
    if mode &&& S_IWUSR ≠ 0 then 119 else 45,
    if mode &&& S_IXUSR ≠ 0 then 120 else 45,
    if mode &&& S_IRGRP ≠ 0 then 114 else 45,
    if mode &&& S_IWGRP ≠ 0 then 119 else 45,
    if mode &&& S_IXGRP ≠ 0 then 120 else 45,
    if mode &&& S_IROTH ≠ 0 then 114 else 45,
    if mode &&& S_IWOTH ≠ 0 then 119 else 45,
    if mode &&& S_IXOTH ≠ 0 then 120 else 45 ]

/-- The function `get_term_width`, on the outcome of the ioctl. -/
def get_term_width (ioctl : Option Nat) : Nat :=
  match ioctl with
  | none => 80
  | some ws_col => if ws_col > 0 then ws_col else 80

/-- The function `is_tarball` (the argument is never NULL: it is a
`strdup` of a directory record name). -/
def is_tarball (name : Name) : Bool :=
  match strrchr name 46 with
  | none => false
  | some ext =>
    strcasecmp ext (cstr ".tar") == 0 ||
    strcasecmp ext (cstr ".gz") == 0 ||
    strcasecmp ext (cstr ".zip") == 0 ||
    strcasecmp ext (cstr ".tgz") == 0 ||
    (strstr name (cstr ".tar.gz")).isSome

/-- The colour selection of `print_colored_padded` (the `if`/`else if` chain
assigning `color`); `none` is the NULL pointer. -/
def print_colored_padded_color (e : FileEntry) : Option Name :=
  if e.is_symlink then some ANSI_MAGENTA
  else if S_ISDIR e.mode then some ANSI_BLUE
  else if S_ISCHR e.mode || S_ISBLK e.mode || S_ISSOCK e.mode || S_ISFIFO e.mode then
    some ANSI_REVERSE
  else if is_tarball e.name then some ANSI_RED
  else if e.mode &&& (S_IXUSR ||| S_IXGRP ||| S_IXOTH) ≠ 0 then some ANSI_GREEN
  else none

/-- The function `print_colored_padded`: the bytes it writes. -/
def print_colored_padded (e : FileEntry) (col_width : Int) : List Nat :=
  let len : Int := e.name.length
  let printed :=
    match print_colored_padded_color e with
    | some color => color ++ e.name ++ ANSI_RESET
    | none => e.name
  let pad := col_width - len
  printed ++ List.replicate pad.toNat 32

/-- The loop computing `maxlen` in both display functions, from the current
value of `maxlen`. -/
def maxlen_loop : List FileEntry → Nat → Nat
  | [], maxlen => maxlen
  | e :: es, maxlen =>
    maxlen_loop es (if e.name.length > maxlen then e.name.length else maxlen)

/-- The printing loop of `display_horizontal`, from the current value of
`curr_width`. -/
def display_horizontal_loop (term_width col_width : Nat) :
    List FileEntry → Nat → List Out
  | [], _ => []
  | e :: es, curr_width =>
    if curr_width + col_width > term_width then
      Out.newline :: Out.cell e col_width ::
        display_horizontal_loop term_width col_width es (0 + col_width)
    else
      Out.cell e col_width ::
        display_horizontal_loop term_width col_width es (curr_width + col_width)

/-- The function `display_horizontal`; `term_width` is what
`get_term_width()` returned. -/
def display_horizontal (term_width : Nat) (entries : List FileEntry) : List Out :=
  let maxlen := maxlen_loop entries 0
  let col_width := maxlen + 2
  display_horizontal_loop term_width col_width entries 0 ++ [Out.newline]

/-- The value of `cols` in `display_vertical`. -/
def vertical_cols (term_width : Nat) (entries : List FileEntry) : Nat :=
  let col_width := maxlen_loop entries 0 + 2
  let cols := term_width / col_width
  if cols < 1 then 1 else cols

/-- The value of `rows` in `display_vertical`. -/
def vertical_rows (term_width : Nat) (entries : List FileEntry) : Nat :=
  let cols := vertical_cols term_width entries
  (entries.length + cols - 1) / cols

/-- The function `display_vertical`; `term_width` is what
`get_term_width()` returned. -/
def display_vertical (term_width : Nat) (entries : List FileEntry) : List Out :=
  let count := entries.length
  let col_width := maxlen_loop entries 0 + 2
  let cols := vertical_cols term_width entries
  let rows := vertical_rows term_width entries
  (List.range rows).flatMap fun r =>
    ((List.range cols).filterMap fun c =>
      let idx := c * rows + r
      if h : idx < count then some (Out.cell (entries.get ⟨idx, h⟩) col_width) else none)
    ++ [Out.newline]

/-- The function `cmp_entry`. -/
def cmp_entry (a b : FileEntry) : Int := strcmp a.name b.name

/-- The C library `qsort` with `cmp_entry`: it leaves the array sorted with
respect to the comparison.  The standard fixes no algorithm; insertion sort is
used here, and any other choice gives the same array whenever the names are
pairwise distinct, as the children of a directory are. -/
def qsort (entries : List FileEntry) : List FileEntry :=
  entries.insertionSort (fun a b => cmp_entry a b ≤ 0)

/-- The `readdir` loop of `do_ls`, from the current contents of `entries` and
the current truth value of `errno != 0`. -/
def do_ls_collect : List Dirent → List FileEntry → Bool → List FileEntry × Bool
  | [], entries, errno => (entries, errno)
  | d :: rest, entries, errno =>
    if d.d_name.head? = some 46 then do_ls_collect rest entries errno
    else
      match d.lstat with
      | none => do_ls_collect rest entries true
      | some st =>
        do_ls_collect rest
          (entries ++ [⟨d.d_name, st.st_mode, st.st_size, S_ISLNK st.st_mode⟩]) errno

/-- The conversion of an `unsigned long` to `long`, as in
`(long)st.st_nlink`: the value itself below `2^63`, and `2^64` less from
there on. -/
def to_long (n : Nat) : Int :=
  if n % 2 ^ 64 < 2 ^ 63 then ((n % 2 ^ 64 : Nat) : Int)
  else ((n % 2 ^ 64 : Nat) : Int) - 2 ^ 64

/-- The long-mode loop of `do_ls`.  The result of `localtime` goes to
`strftime` untested, so the loop ends in `Out.killed` at the first entry whose
modification time `localtime` cannot convert. -/
def do_ls_long (env : Env) (lstat : Name → Option Stat) : List FileEntry → List Out
  | [] => []
  | e :: es =>
    match lstat e.name with
    | none => do_ls_long env lstat es
    | some st =>
      match env.localtime st.st_mtime with
      | none => [Out.killed]
      | some timebuf =>
        Out.long_fields (mode_to_str st.st_mode) (to_long st.st_nlink)
            ((env.getpwuid st.st_uid).getD (cstr "?"))
            ((env.getgrgid st.st_gid).getD (cstr "?"))
            st.st_size timebuf
          :: Out.cell e 0 :: Out.newline :: do_ls_long env lstat es

/-- The display step of `do_ls` on the sorted entries: the branch on
`long_flag` and `horizontal_flag`. -/
def do_ls_display (env : Env) (long_flag horizontal_flag : Bool)
    (lstat : Name → Option Stat) (entries : List FileEntry) : List Out :=
  if long_flag then do_ls_long env lstat entries
  else if horizontal_flag then display_horizontal (get_term_width env.ioctl) entries
  else display_vertical (get_term_width env.ioctl) entries

/-- The function `do_ls`. -/
def do_ls (env : Env) (long_flag horizontal_flag recursive_flag : Bool) :
    Name → DirStream → Output
  | dir, DirStream.null => ⟨[], [Err.cannot_open dir]⟩
  | dir, DirStream.dir readdir lstat opendir =>
    let collected := do_ls_collect readdir [] false
    let perr := if collected.2 then [Err.perror (cstr "readdir failed")] else []
    if collected.1.length = 0 then
      ⟨[Out.header dir, Out.newline], perr⟩
    else
      let entries := qsort collected.1
      let listing : Output :=
        ⟨Out.header dir :: do_ls_display env long_flag horizontal_flag lstat entries, perr⟩
      if recursive_flag then
        entries.foldl (fun out e =>
          if S_ISDIR e.mode then
            if strcmp e.name (cstr ".") = 0 ∨ strcmp e.name (cstr "..") = 0 then out
            else
              (out.append ⟨[Out.newline], []⟩).append
                (do_ls env long_flag horizontal_flag recursive_flag
                  (dir ++ cstr "/" ++ e.name) (opendir e.name))
          else out) listing
      else listing

/-- The loop of `main` over the path arguments; `multiple` is the C variable
of that name and `fs` gives what `opendir` returns on each argument. -/
def main_loop (env : Env) (long_flag horizontal_flag recursive_flag : Bool)
    (fs : Name → DirStream) (multiple : Bool) : List Name → Output
  | [] => ⟨[], []⟩
  | path :: rest =>
    let head : Output := if multiple then ⟨[Out.listing_of path], []⟩ else ⟨[], []⟩
    let sep : Output := if rest ≠ [] then ⟨[Out.newline], []⟩ else ⟨[], []⟩
    ((head.append (do_ls env long_flag horizontal_flag recursive_flag path (fs path))).append
      sep).append (main_loop env long_flag horizontal_flag recursive_flag fs multiple rest)

/-- The decimal digits of a natural number. -/
def decimal (n : Nat) : Name := (Nat.toDigits 10 n).map Char.toNat

/-- The conversions `%<width>ld` and `%<width>lld` of `printf`: the decimal
form of the value, right-aligned in the width, padded with spaces. -/
def printf_d (width : Nat) (v : Int) : Name :=
  let s := if v < 0 then 45 :: decimal v.natAbs else decimal v.natAbs
  List.replicate (width - s.length) 32 ++ s

/-- The bytes one output call writes. -/
def Out.render : Out → List Nat
  | Out.listing_of path => cstr "Directory listing of " ++ path ++ cstr ":\n"
  | Out.header dir => dir ++ cstr ":\n"
  | Out.newline => cstr "\n"
  | Out.long_fields perms nlink owner group size timebuf =>
    perms ++ cstr " " ++ printf_d 2 nlink ++ cstr " " ++ owner ++ cstr " " ++ group ++
      cstr " " ++ printf_d 6 size ++ cstr " " ++ timebuf ++ cstr " "
  | Out.cell e col_width => print_colored_padded e col_width
  | Out.killed => []

/-- The bytes a sequence of output calls writes. -/
def render (out : List Out) : List Nat := out.flatMap Out.render

/-- The entries printed, in the order of the calls that print them. -/
def shown : List Out → List FileEntry
  | [] => []
  | Out.cell e _ :: rest => e :: shown rest
  | _ :: rest => shown rest

/-- The output cut into lines, each line given by the entries printed on it.
A newline ends the current line; a header is a line of its own without
entries; entries after the last newline form a last line. -/
def lines : List Out → List (List FileEntry)
  | [] => []
  | Out.cell e _ :: rest =>
    match lines rest with
    | [] => [[e]]
    | l :: ls => (e :: l) :: ls
  | Out.long_fields _ _ _ _ _ _ :: rest => lines rest
  | Out.killed :: rest => lines rest
  | _ :: rest => [] :: lines rest

/-- A grid of lines read column by column: first the first cell of every line
that has one, from the top line down, then the second cells, and so on. -/
def read_down {α : Type} (grid : List (List α)) : List α :=
  (List.range ((grid.map List.length).foldr max 0)).flatMap fun c =>
    grid.filterMap fun row => row.get? c

/-- The names displayed, read in the fill order of the mode: in print order
for the long and the horizontal mode, column by column for the vertical
mode. -/
def displayed_names (long_flag horizontal_flag : Bool) (out : List Out) : List Name :=
  if long_flag || horizontal_flag then (shown out).map FileEntry.name
  else (read_down (lines out)).map FileEntry.name

/-- A name is hidden when its first byte is `.` (the test `d_name[0] == 46`). -/
def hidden (name : Name) : Bool := name.head? == some 46

/-! ## Notions used to state the properties -/

/-- The largest byte length of a name in the batch (0 for an empty batch). -/
def max_name_length (entries : List FileEntry) : Nat :=
  (entries.map fun e => e.name.length).foldr max 0

/-- The entry the collection loop stores for a record, if it stores one. -/
def collect_one (d : Dirent) : Option FileEntry :=
  if hidden d.d_name then none
  else d.lstat.map fun st => ⟨d.d_name, st.st_mode, st.st_size, S_ISLNK st.st_mode⟩

/-! ## Sample inputs -/

/-- A regular file (mode 0644, size 0) with the given ASCII name. -/
def plain_entry (s : String) : FileEntry := ⟨cstr s, 0o100644, 0, false⟩

/-- The result of a successful `lstat` on a file of the given mode. -/
def stat_with_mode (m : Nat) : Stat := ⟨m, 1, 0, 0, 0, 0⟩

/-- An environment with an 80-column terminal and empty user databases, where
every modification time is shown as `Jan  1 00:00`. -/
def sample_env : Env :=
  ⟨some 80, fun _ => none, fun _ => none, fun _ => some (cstr "Jan  1 00:00")⟩

/-- A directory stream over the given records whose display-time `lstat`
succeeds on every name and whose children cannot be opened. -/
def flat_dir (records : List Dirent) : DirStream :=
  DirStream.dir records (fun _ => some (stat_with_mode 0o100644)) (fun _ => DirStream.null)

/-- The colour rules in the priority order of the specification, each with
its condition: symlink, directory, special file (char device, block device,
socket or fifo), archive name, some execute bit. -/
def spec_color_rules (e : FileEntry) : List (Bool × Name) :=
  [ (e.is_symlink, ANSI_MAGENTA),
    (S_ISDIR e.mode, ANSI_BLUE),
    (S_ISCHR e.mode || S_ISBLK e.mode || S_ISSOCK e.mode || S_ISFIFO e.mode, ANSI_REVERSE),
    (is_tarball e.name, ANSI_RED),
    (decide (e.mode &&& S_IXUSR ≠ 0 ∨ e.mode &&& S_IXGRP ≠ 0 ∨ e.mode &&& S_IXOTH ≠ 0),
      ANSI_GREEN) ]

/-- The colour of the specification: that of the first rule whose condition
holds, none when no rule applies. -/
def spec_color_for (e : FileEntry) : Option Name :=
  ((spec_color_rules e).find? fun rule => rule.1).map fun rule => rule.2

/-- The number of bytes of a cell that are not part of a colour or reset
sequence: what `print_colored_padded` writes, less the escape sequences it
wrapped around the name. -/
def visible_width (e : FileEntry) (col_width : Int) : Nat :=
  (print_colored_padded e col_width).length -
    match print_colored_padded_color e with
    | some color => color.length + ANSI_RESET.length
    | none => 0

/-! ## The long listing of `ls-v1.5.0.c`

The previous version of the program has the same helpers except `is_tarball`,
and a long-mode loop that also prints a placeholder line and the target of a
symlink.  They are embedded as the bytes written. -/

/-- The C library `strcasestr`: the suffix that starts at the first occurrence
of `needle` up to the case of letters, or `none` (NULL). -/
def strcasestr : Name → Name → Option Name
  | [], needle => if needle = [] then some [] else none
  | a :: as, needle =>
    if (needle.map tolower).isPrefixOf ((a :: as).map tolower) then some (a :: as)
    else strcasestr as needle

/-- The function `is_tarball` of `ls-v1.5.0.c`. -/
def is_tarball_v150 (name : Name) : Bool :=
  match strrchr name 46 with
  | none => false
  | some ext =>
    if strcasecmp ext (cstr ".tar") = 0 then true
    else if strcasecmp ext (cstr ".gz") = 0 then true
    else if strcasecmp ext (cstr ".zip") = 0 then true
    else if strcasecmp ext (cstr ".tgz") = 0 then true
    else if (strcasestr name (cstr ".tar.gz")).isSome then true
    else false

/-- The function `print_colored_padded` of `ls-v1.5.0.c`: the bytes it writes. -/
def print_colored_padded_v150 (e : FileEntry) (col_width : Int) : List Nat :=
  let color : Option Name :=
    if e.is_symlink then some ANSI_MAGENTA
    else if S_ISDIR e.mode then some ANSI_BLUE
    else if S_ISCHR e.mode || S_ISBLK e.mode || S_ISSOCK e.mode || S_ISFIFO e.mode then
      some ANSI_REVERSE
    else if is_tarball_v150 e.name then some ANSI_RED
    else if e.mode &&& (S_IXUSR ||| S_IXGRP ||| S_IXOTH) ≠ 0 then some ANSI_GREEN
    else none
  let len : Int := e.name.length
  let printed :=
    match color with
    | some c => c ++ e.name ++ ANSI_RESET
    | none => e.name
  let pad := col_width - len
  printed ++ List.replicate pad.toNat 32

/-- The bytes of the call `printf("%s %2ld %s %s %6lld %s ", ...)` that both
versions make for an entry whose display-time `lstat` gave `st`, with
`timebuf` holding the given bytes. -/
def long_fields_bytes (env : Env) (st : Stat) (timebuf : Name) : List Nat :=
  (Out.long_fields (mode_to_str st.st_mode) (to_long st.st_nlink)
    ((env.getpwuid st.st_uid).getD (cstr "?"))
    ((env.getgrgid st.st_gid).getD (cstr "?"))
    st.st_size timebuf).render

/-- The content of `timebuf` in `ls-v1.5.0.c`: what `strftime` writes when
`localtime` succeeds, and the copy of `"??? ?? ??:??"` when it returns NULL. -/
def timebuf_v150 (env : Env) (st : Stat) : Name :=
  match env.localtime st.st_mtime with
  | some formatted => formatted
  | none => cstr "??? ?? ??:??"

/-- The long-mode loop of `do_ls` in `ls-v1.5.0.c`, as the bytes it writes.
`readlink` gives the bytes `readlink` stores for a child name (`none` when it
returns -1). -/
def do_ls_long_v150 (env : Env) (lstat : Name → Option Stat)
    (readlink : Name → Option Name) : List FileEntry → List Nat
  | [] => []
  | e :: es =>
    match lstat e.name with
    | none =>
      cstr "?????????? ? ? ? ?      ? " ++ e.name ++ cstr "\n" ++
        do_ls_long_v150 env lstat readlink es
    | some st =>
      long_fields_bytes env st (timebuf_v150 env st) ++ print_colored_padded_v150 e 0 ++
        (if S_ISLNK st.st_mode then
          match readlink e.name with
          | some target => if target.length > 0 then cstr " -> " ++ target else []
          | none => []
         else []) ++
        cstr "\n" ++ do_ls_long_v150 env lstat readlink es

/-! ## Notions used to state the traversal and the long line -/

/-- The ASCII code of a character. -/
def byte (c : Char) : Nat := c.toNat

/-- What one iteration of the recursion loop of `do_ls` writes for the entry
`e` of the directory `dir`: nothing unless `e` is a directory other than `.`
and `..`, and then a newline followed by the output of `do_ls` on the child
path. -/
def do_ls_descend (env : Env) (long_flag horizontal_flag recursive_flag : Bool)
    (dir : Name) (opendir : Name → DirStream) (e : FileEntry) : Output :=
  if S_ISDIR e.mode then
    if strcmp e.name (cstr ".") = 0 ∨ strcmp e.name (cstr "..") = 0 then ⟨[], []⟩
    else
      (⟨[Out.newline], []⟩ : Output).append
        (do_ls env long_flag horizontal_flag recursive_flag (dir ++ cstr "/" ++ e.name)
          (opendir e.name))
  else ⟨[], []⟩

/-- A directory with the two children `x` and `y`, where the display-time
`lstat` fails on `x` only. -/
def dir_x_vanished : DirStream :=
  DirStream.dir
    [⟨cstr "x", some (stat_with_mode 0o100644)⟩, ⟨cstr "y", some (stat_with_mode 0o100644)⟩]
    (fun n => if n = cstr "x" then none else some (stat_with_mode 0o100644))
    (fun _ => DirStream.null)

theorem strcmp_cases (a b : Name) :
    (strcmp a b = -1 ∧ a < b) ∨ (strcmp a b = 0 ∧ a = b) ∨ (strcmp a b = 1 ∧ b < a) := by
  induction a generalizing b with
  | nil =>
    cases b with
    | nil => simp [strcmp]
    | cons b bs => left; exact ⟨by simp [strcmp], List.Lex.nil⟩
  | cons a as ih =>
    cases b with
    | nil => right; right; exact ⟨by simp [strcmp], List.Lex.nil⟩
    | cons b bs =>
      by_cases hab : a = b
      · subst hab
        rcases ih bs with h | h | h
        · left; exact ⟨by simp [strcmp, h.1], List.Lex.cons h.2⟩
        · right; left; exact ⟨by simp [strcmp, h.1], by rw [h.2]⟩
        · right; right; exact ⟨by simp [strcmp, h.1], List.Lex.cons h.2⟩
      · by_cases hlt : a < b
        · left; exact ⟨by simp [strcmp, hab, hlt], List.Lex.rel hlt⟩
        · right; right
          have hba : b < a := by omega
          exact ⟨by simp [strcmp, hab, hlt], List.Lex.rel hba⟩

theorem strcmp_le_iff (a b : Name) : strcmp a b ≤ 0 ↔ a ≤ b := by
  rcases strcmp_cases a b with h | h | h
  · simp only [h.1]; simp; exact le_of_lt h.2
  · obtain ⟨h1, rfl⟩ := h; simp [h1]
  · simp only [h.1]; simp; exact h.2

theorem strcmp_eq_zero_iff (a b : Name) : strcmp a b = 0 ↔ a = b := by
  rcases strcmp_cases a b with h | h | h
  · simp only [h.1]; simp; exact ne_of_lt h.2
  · obtain ⟨h1, rfl⟩ := h; simp [h1]
  · simp only [h.1]; simp; exact (ne_of_lt h.2).symm

/-! ## The batch: longest name, sorting, collection -/

theorem maxlen_loop_eq (es : List FileEntry) (m : Nat) :
    maxlen_loop es m = max m (max_name_length es) := by
  induction es generalizing m with
  | nil => simp [maxlen_loop, max_name_length]
  | cons e es ih =>
    simp only [maxlen_loop, ih, max_name_length, List.map_cons, List.foldr_cons]
    split <;> omega

theorem maxlen_loop_zero (es : List FileEntry) : maxlen_loop es 0 = max_name_length es := by
  rw [maxlen_loop_eq]; simp

theorem length_le_max_name_length {es : List FileEntry} {e : FileEntry} (h : e ∈ es) :
    e.name.length ≤ max_name_length es := by
  induction es with
  | nil => cases h
  | cons x xs ih =>
    simp only [max_name_length, List.map_cons, List.foldr_cons]
    rcases List.mem_cons.1 h with rfl | h
    · exact le_max_left _ _
    · exact le_trans (ih h) (le_max_right _ _)

theorem max_name_length_attained {es : List FileEntry} (h : es ≠ []) :
    ∃ e ∈ es, e.name.length = max_name_length es := by
  induction es with
  | nil => exact absurd rfl h
  | cons x xs ih =>
    by_cases hx : xs = []
    · subst hx; exact ⟨x, by simp, by simp [max_name_length]⟩
    · obtain ⟨e, he, hlen⟩ := ih hx
      simp only [max_name_length, List.map_cons, List.foldr_cons]
      by_cases hle : max_name_length xs ≤ x.name.length
      · exact ⟨x, by simp, by rw [max_eq_left]; exact hle⟩
      · refine ⟨e, List.mem_cons_of_mem _ he, ?_⟩
        rw [hlen]; unfold max_name_length at hle ⊢; omega

theorem cmp_entry_total (a b : FileEntry) : cmp_entry a b ≤ 0 ∨ cmp_entry b a ≤ 0 := by
  simp only [cmp_entry, strcmp_le_iff]; exact le_total _ _

theorem cmp_entry_trans (a b c : FileEntry) (hab : cmp_entry a b ≤ 0)
    (hbc : cmp_entry b c ≤ 0) : cmp_entry a c ≤ 0 := by
  simp only [cmp_entry, strcmp_le_iff] at *; exact le_trans hab hbc

theorem qsort_perm (es : List FileEntry) : (qsort es).Perm es :=
  List.perm_insertionSort _ es

theorem qsort_sorted (es : List FileEntry) :
    (qsort es).Sorted (fun a b => cmp_entry a b ≤ 0) := by
  haveI : IsTotal FileEntry (fun a b => cmp_entry a b ≤ 0) := ⟨cmp_entry_total⟩
  haveI : IsTrans FileEntry (fun a b => cmp_entry a b ≤ 0) := ⟨cmp_entry_trans⟩
  exact List.sorted_insertionSort _ es

theorem qsort_names_sorted (es : List FileEntry) :
    ((qsort es).map FileEntry.name).Sorted (· ≤ ·) := by
  have h := qsort_sorted es
  unfold List.Sorted at h ⊢
  rw [List.pairwise_map]
  exact h.imp (fun {a b} hab => (strcmp_le_iff a.name b.name).1 hab)

theorem do_ls_collect_fst (rd : List Dirent) (acc : List FileEntry) (errno : Bool) :
    (do_ls_collect rd acc errno).1 = acc ++ rd.filterMap collect_one := by
  induction rd generalizing acc errno with
  | nil => simp [do_ls_collect]
  | cons d rest ih =>
    unfold do_ls_collect
    by_cases hh : d.d_name.head? = some 46
    · simp [hh, ih, collect_one, hidden, List.filterMap_cons]
    · cases hl : d.lstat with
      | none => simp [hh, hl, ih, collect_one, hidden, List.filterMap_cons]
      | some st => simp [hh, hl, ih, collect_one, hidden, List.filterMap_cons]

theorem do_ls_collect_snd (rd : List Dirent) (acc : List FileEntry) (errno : Bool) :
    (do_ls_collect rd acc errno).2 =
      (errno || rd.any fun d => !hidden d.d_name && d.lstat.isNone) := by
  induction rd generalizing acc errno with
  | nil => simp [do_ls_collect]
  | cons d rest ih =>
    unfold do_ls_collect
    by_cases hh : d.d_name.head? = some 46
    · simp [hh, ih, hidden]
    · cases hl : d.lstat with
      | none => simp [hh, hl, ih, hidden]
      | some st => simp [hh, hl, ih, hidden]

/-! ## The geometry of the vertical layout -/

theorem vertical_cols_pos (w : Nat) (es : List FileEntry) : 1 ≤ vertical_cols w es := by
  unfold vertical_cols
  simp only
  split <;> omega

theorem vertical_rows_mul_ge (w : Nat) (es : List FileEntry) :
    es.length ≤ vertical_rows w es * vertical_cols w es := by
  have hc := vertical_cols_pos w es
  unfold vertical_rows
  simp only
  generalize vertical_cols w es = cols at hc ⊢
  have h1 := Nat.div_add_mod (es.length + cols - 1) cols
  have h2 := Nat.mod_lt (es.length + cols - 1) hc
  have h3 : cols * ((es.length + cols - 1) / cols) = (es.length + cols - 1) / cols * cols :=
    Nat.mul_comm _ _
  omega

theorem vertical_rows_pred_mul_lt (w : Nat) (es : List FileEntry) (hne : es ≠ []) :
    (vertical_rows w es - 1) * vertical_cols w es < es.length := by
  have hc := vertical_cols_pos w es
  have hn : 0 < es.length := List.length_pos.2 hne
  unfold vertical_rows
  simp only
  generalize vertical_cols w es = cols at hc ⊢
  have h1 := Nat.div_add_mod (es.length + cols - 1) cols
  have h3 : cols * ((es.length + cols - 1) / cols) = (es.length + cols - 1) / cols * cols :=
    Nat.mul_comm _ _
  have h4 : ((es.length + cols - 1) / cols - 1) * cols =
      (es.length + cols - 1) / cols * cols - cols := by
    rw [Nat.sub_mul, Nat.one_mul]
  omega

theorem vertical_rows_pos (w : Nat) (es : List FileEntry) (hne : es ≠ []) :
    1 ≤ vertical_rows w es := by
  have h := vertical_rows_mul_ge w es
  have hn : 0 < es.length := List.length_pos.2 hne
  by_contra hlt
  have : vertical_rows w es = 0 := by omega
  rw [this] at h
  omega

theorem vertical_rows_le_length (w : Nat) (es : List FileEntry) :
    vertical_rows w es ≤ es.length := by
  by_cases hne : es = []
  · subst hne; unfold vertical_rows; simp only [List.length_nil]
    have hc := vertical_cols_pos w []
    generalize vertical_cols w [] = cols at hc ⊢
    have : 0 + cols - 1 < cols := by omega
    rw [Nat.div_eq_of_lt this]
  · have h := vertical_rows_pred_mul_lt w es hne
    have hc := vertical_cols_pos w es
    have : vertical_rows w es - 1 ≤ (vertical_rows w es - 1) * vertical_cols w es :=
      Nat.le_mul_of_pos_right _ hc
    omega

/-! ## Lines of output and filtered ranges -/

theorem lines_append_newline_ne_nil (xs rest : List Out) :
    lines (xs ++ Out.newline :: rest) ≠ [] := by
  induction xs with
  | nil => simp [lines]
  | cons x xs ih =>
    cases x with
    | cell e k =>
      simp only [List.cons_append, lines]
      split <;> simp
    | long_fields => simpa [lines] using ih
    | killed => simpa [lines] using ih
    | listing_of => simp [lines]
    | header => simp [lines]
    | newline => simp [lines]

theorem lines_cells_newline (cs : List FileEntry) (k : Int) (rest : List Out) :
    lines (cs.map (fun e => Out.cell e k) ++ Out.newline :: rest) = cs :: lines rest := by
  induction cs with
  | nil => simp [lines]
  | cons c cs ih => simp [lines, ih]

theorem shown_append (xs ys : List Out) : shown (xs ++ ys) = shown xs ++ shown ys := by
  induction xs with
  | nil => rfl
  | cons x xs ih => cases x <;> simp [shown, ih]

theorem shown_cells (cs : List FileEntry) (k : Int) :
    shown (cs.map fun e => Out.cell e k) = cs := by
  induction cs with
  | nil => rfl
  | cons c cs ih => simp [shown, ih]

/-- A partial function that is defined on an initial segment of the naturals,
filtered over a range, keeps its values at their own positions. -/
theorem filterMap_range_length_le {α : Type} (f : Nat → Option α)
    (hf : ∀ c, f c = none → f (c + 1) = none) (k c : Nat) (hc : f c = none) :
    ((List.range k).filterMap f).length ≤ c := by
  induction k with
  | zero => simp
  | succ k ih =>
    rw [List.range_succ, List.filterMap_append]
    by_cases hk : k < c
    · have : ((List.range k).filterMap f).length ≤ k := by
        have := List.length_filterMap_le f (List.range k)
        simpa using this
      have h2 : (List.filterMap f [k]).length ≤ 1 := by
        have := List.length_filterMap_le f [k]
        simpa using this
      rw [List.length_append]; omega
    · have hnone : ∀ d, f (c + d) = none := by
        intro d
        induction d with
        | zero => simpa using hc
        | succ d ihd => exact hf _ ihd
      have hk2 : f k = none := by
        have := hnone (k - c)
        rwa [Nat.add_sub_cancel' (by omega)] at this
      simp [List.filterMap_cons, hk2, ih]

theorem filterMap_range_getElem? {α : Type} (f : Nat → Option α)
    (hf : ∀ c, f c = none → f (c + 1) = none) (k c : Nat) :
    ((List.range k).filterMap f)[c]? = if c < k then f c else none := by
  induction k with
  | zero => simp
  | succ k ih =>
    rw [List.range_succ, List.filterMap_append]
    by_cases hck : c < k
    · have hck1 : c < k + 1 := by omega
      rw [if_pos hck] at ih
      rw [if_pos hck1]
      cases hfc : f c with
      | none =>
        apply List.getElem?_eq_none
        have h1 := filterMap_range_length_le f hf (k + 1) c hfc
        rwa [List.range_succ, List.filterMap_append] at h1
      | some v =>
        rw [hfc] at ih
        have hlt : c < ((List.range k).filterMap f).length := by
          by_contra hge
          rw [List.getElem?_eq_none (by omega)] at ih
          cases ih
        rw [List.getElem?_append_left hlt, ih]
    · rw [if_neg hck] at ih
      have hlen : ((List.range k).filterMap f).length ≤ c := by
        by_contra hlt
        have : ((List.range k).filterMap f)[c]? ≠ none := by
          rw [List.getElem?_eq_getElem (by omega)]; simp
        exact this ih
      by_cases hc : c = k
      · subst hc
        simp only [Nat.lt_succ_self, if_true]
        cases hfc : f c with
        | none =>
          apply List.getElem?_eq_none
          simp [List.filterMap_cons, hfc, hlen]
        | some v =>
          have hlen2 : ((List.range c).filterMap f).length = c := by
            -- every earlier value is defined, so nothing is dropped
            have hall : ∀ j, j < c → (f j).isSome := by
              intro j hj
              by_contra hn
              have hnone : f j = none := by
                cases h : f j with
                | none => rfl
                | some _ => simp [h] at hn
              have hnone2 : ∀ d, f (j + d) = none := by
                intro d
                induction d with
                | zero => simpa using hnone
                | succ d ihd => exact hf _ ihd
              have := hnone2 (c - j)
              rw [Nat.add_sub_cancel' (by omega)] at this
              rw [this] at hfc; cases hfc
            clear ih hlen hfc hck
            induction c with
            | zero => simp
            | succ c ihc =>
              rw [List.range_succ, List.filterMap_append, List.length_append,
                ihc (fun j hj => hall j (by omega))]
              have := hall c (by omega)
              cases h : f c with
              | none => simp [h] at this
              | some _ => simp [List.filterMap_cons, h]
          rw [List.getElem?_append_right (by omega), hlen2]
          simp [List.filterMap_cons, hfc]
      · have : ¬ c < k + 1 := by omega
        rw [if_neg this]
        apply List.getElem?_eq_none
        have h2 : (List.filterMap f [k]).length ≤ 1 := by
          have := List.length_filterMap_le f [k]
          simpa using this
        rw [List.length_append]
        have : ((List.range k).filterMap f).length ≤ k := by
          have := List.length_filterMap_le f (List.range k)
          simpa using this
        omega

/-- Row `r` of the vertical grid, as the entries printed on it. -/
theorem display_vertical_lines (w : Nat) (es : List FileEntry) :
    lines (display_vertical w es) =
      (List.range (vertical_rows w es)).map fun r =>
        (List.range (vertical_cols w es)).filterMap fun c =>
          es[c * vertical_rows w es + r]? := by
  unfold display_vertical
  simp only
  generalize vertical_rows w es = rows
  generalize vertical_cols w es = cols
  generalize ((maxlen_loop es 0 + 2 : Nat) : Int) = cw
  have hrow : ∀ r, (List.filterMap (fun c =>
      if h : c * rows + r < es.length then some (Out.cell (es.get ⟨c * rows + r, h⟩) cw)
      else none) (List.range cols)) =
      ((List.range cols).filterMap fun c => es[c * rows + r]?).map (fun e => Out.cell e cw) := by
    intro r
    rw [List.map_filterMap]
    congr 1
    funext c
    by_cases h : c * rows + r < es.length
    · simp [h, List.getElem?_eq_getElem]
    · simp [h, List.getElem?_eq_none (Nat.le_of_not_lt h)]
  generalize List.range rows = rs
  induction rs with
  | nil => simp [lines]
  | cons r rs ih =>
    rw [List.flatMap_cons, List.map_cons, hrow, List.append_assoc, List.singleton_append,
      lines_cells_newline, ih]

theorem vertical_cell_none_succ (es : List FileEntry) (rows r : Nat) :
    ∀ c, es[c * rows + r]? = none → es[(c + 1) * rows + r]? = none := by
  intro c h
  rw [List.getElem?_eq_none_iff] at h ⊢
  have : (c + 1) * rows = c * rows + rows := by ring
  omega

/-- The cell in row `r`, column `c` of the vertical grid. -/
theorem display_vertical_cell (w : Nat) (es : List FileEntry) (r c : Nat)
    (hr : r < vertical_rows w es) :
    ((lines (display_vertical w es)).get? r).bind (fun row => row.get? c) =
      if c < vertical_cols w es then es.get? (c * vertical_rows w es + r) else none := by
  rw [display_vertical_lines]
  simp only [List.get?_eq_getElem?, List.getElem?_map, List.getElem?_range hr, Option.map_some',
    Option.some_bind]
  exact filterMap_range_getElem? _ (vertical_cell_none_succ es _ r) _ c

/-! ## Reading a grid column by column -/

theorem foldr_max_le {l : List Nat} {K : Nat} (h : ∀ x ∈ l, x ≤ K) : l.foldr max 0 ≤ K := by
  induction l with
  | nil => simp
  | cons x xs ih =>
    simp only [List.foldr_cons]
    exact max_le (h x (by simp)) (ih fun y hy => h y (List.mem_cons_of_mem _ hy))

theorem le_foldr_max {l : List Nat} {x : Nat} (h : x ∈ l) : x ≤ l.foldr max 0 := by
  induction l with
  | nil => cases h
  | cons y ys ih =>
    simp only [List.foldr_cons]
    rcases List.mem_cons.1 h with rfl | h
    · exact le_max_left _ _
    · exact le_trans (ih h) (le_max_right _ _)

theorem column_empty_of_le {α : Type} (G : List (List α)) (c : Nat)
    (h : ∀ row ∈ G, row.length ≤ c) : (G.filterMap fun row => row.get? c) = [] := by
  induction G with
  | nil => rfl
  | cons row G ih =>
    have h1 : row.get? c = none := by
      rw [List.get?_eq_getElem?]
      exact List.getElem?_eq_none (h row (by simp))
    simp only [List.filterMap_cons, h1]
    exact ih fun r hr => h r (List.mem_cons_of_mem _ hr)

/-- Reading a grid down its columns may stop at any column count no row
exceeds. -/
theorem read_down_eq_of_le {α : Type} (G : List (List α)) (K : Nat)
    (h : ∀ row ∈ G, row.length ≤ K) :
    read_down G = (List.range K).flatMap fun c => G.filterMap fun row => row.get? c := by
  unfold read_down
  have hM : (G.map List.length).foldr max 0 ≤ K :=
    foldr_max_le (by
      intro x hx
      obtain ⟨row, hrow, rfl⟩ := List.mem_map.1 hx
      exact h row hrow)
  have hrows : ∀ row ∈ G, row.length ≤ (G.map List.length).foldr max 0 := fun row hrow =>
    le_foldr_max (List.mem_map.2 ⟨row, hrow, rfl⟩)
  generalize (G.map List.length).foldr max 0 = M at hM hrows
  obtain ⟨d, rfl⟩ := Nat.exists_eq_add_of_le hM
  clear hM h
  induction d with
  | zero => rfl
  | succ d ih =>
    rw [← Nat.add_assoc, List.range_succ, List.flatMap_append, ← ih]
    have : (G.filterMap fun row => row.get? (M + d)) = [] :=
      column_empty_of_le G _ fun row hrow => le_trans (hrows row hrow) (Nat.le_add_right _ _)
    rw [List.flatMap_cons, this, List.flatMap_nil, List.append_nil, List.append_nil]

theorem filterMap_range_getElem?_add {α : Type} (l : List α) (a k : Nat) :
    ((List.range k).filterMap fun r => l[a + r]?) = (l.drop a).take k := by
  induction k with
  | zero => simp
  | succ k ih =>
    rw [List.range_succ, List.filterMap_append, ih, List.take_succ]
    congr 1
    rw [List.getElem?_drop]
    cases h : l[a + k]? <;> simp [List.filterMap_cons, h]

theorem flatMap_range_drop_take {α : Type} (l : List α) (rows k : Nat) :
    ((List.range k).flatMap fun c => (l.drop (c * rows)).take rows) = l.take (k * rows) := by
  induction k with
  | zero => simp
  | succ k ih =>
    rw [List.range_succ, List.flatMap_append, ih]
    have : (k + 1) * rows = k * rows + rows := by ring
    rw [this, List.take_add]
    simp

/-- Read column by column, the vertical grid is the batch in its order. -/
theorem read_down_display_vertical (w : Nat) (es : List FileEntry) :
    read_down (lines (display_vertical w es)) = es := by
  have hrowlen : ∀ row ∈ lines (display_vertical w es), row.length ≤ vertical_cols w es := by
    intro row hrow
    rw [display_vertical_lines] at hrow
    obtain ⟨r, _, rfl⟩ := List.mem_map.1 hrow
    have := List.length_filterMap_le (fun c => es[c * vertical_rows w es + r]?)
      (List.range (vertical_cols w es))
    simpa using this
  rw [read_down_eq_of_le _ _ hrowlen]
  have hcol : ∀ c ∈ List.range (vertical_cols w es),
      ((lines (display_vertical w es)).filterMap fun row => row.get? c) =
        (es.drop (c * vertical_rows w es)).take (vertical_rows w es) := by
    intro c hc
    rw [display_vertical_lines, List.filterMap_map, ← filterMap_range_getElem?_add]
    apply List.filterMap_congr
    intro r _
    simp only [Function.comp, List.get?_eq_getElem?]
    rw [filterMap_range_getElem? _ (vertical_cell_none_succ es _ r), if_pos (List.mem_range.1 hc)]
  rw [List.flatMap_congr hcol, flatMap_range_drop_take]
  apply List.take_of_length_le
  rw [Nat.mul_comm]
  exact vertical_rows_mul_ge w es

theorem length_columns_cons {α : Type} (row : List α) (G : List (List α)) (K : Nat) :
    ((List.range K).flatMap fun c => (row :: G).filterMap fun x => x.get? c).length =
      min K row.length +
        ((List.range K).flatMap fun c => G.filterMap fun x => x.get? c).length := by
  induction K with
  | zero => simp
  | succ K ih =>
    rw [List.range_succ, List.flatMap_append, List.flatMap_append, List.length_append,
      List.length_append, ih]
    simp only [List.flatMap_cons, List.flatMap_nil, List.append_nil, List.filterMap_cons,
      List.get?_eq_getElem?]
    by_cases hK : K < row.length
    · rw [List.getElem?_eq_getElem hK]
      simp only [List.length_cons]
      omega
    · rw [List.getElem?_eq_none (Nat.le_of_not_lt hK)]
      simp only
      omega

/-- Reading a grid down its columns visits as many cells as the grid has. -/
theorem length_read_down {α : Type} (G : List (List α)) :
    (read_down G).length = (G.map List.length).sum := by
  have key : ∀ (G : List (List α)) (K : Nat), (∀ row ∈ G, row.length ≤ K) →
      ((List.range K).flatMap fun c => G.filterMap fun x => x.get? c).length =
        (G.map List.length).sum := by
    intro G K
    induction G with
    | nil =>
      intro _
      have h0 : ∀ K : Nat, ((List.range K).flatMap fun c =>
          ([] : List (List α)).filterMap fun x => x.get? c) = [] := by
        intro K
        induction K with
        | zero => rfl
        | succ K ih => rw [List.range_succ, List.flatMap_append, ih]; rfl
      rw [h0]; rfl
    | cons row G ih =>
      intro h
      rw [length_columns_cons, ih fun r hr => h r (List.mem_cons_of_mem _ hr)]
      have := h row (by simp)
      simp only [List.map_cons, List.sum_cons]
      omega
  rw [read_down_eq_of_le G ((G.map List.length).foldr max 0)
    (fun row hrow => le_foldr_max (List.mem_map.2 ⟨row, hrow, rfl⟩))]
  exact key G _ fun row hrow => le_foldr_max (List.mem_map.2 ⟨row, hrow, rfl⟩)

/-- C2: for a non-empty batch `display_vertical` uses
`row_count = ceil(n / column_count)`, prints `row_count` lines, puts in row `r`,
column `c` the entry of index `c * row_count + r` exactly when `c` is a column
and that index is below `n`, and so prints every index `i < n` exactly once:
at row `i mod row_count`, column `i div row_count`, a column below
`column_count`, at no other position, with `n` cells printed in all. -/
theorem C2_display_vertical_layout (w : Nat) (es : List FileEntry) (hne : es ≠ []) :
    vertical_rows w es = ⌈(es.length : ℚ) / (vertical_cols w es : ℚ)⌉₊ ∧
    (lines (display_vertical w es)).length = vertical_rows w es ∧
    (∀ r c, r < vertical_rows w es →
      ((lines (display_vertical w es)).get? r).bind (fun row => row.get? c) =
        if c < vertical_cols w es ∧ c * vertical_rows w es + r < es.length
        then es.get? (c * vertical_rows w es + r) else none) ∧
    (∀ i, i < es.length →
      i % vertical_rows w es < vertical_rows w es ∧
      i / vertical_rows w es < vertical_cols w es ∧
      ((lines (display_vertical w es)).get? (i % vertical_rows w es)).bind
        (fun row => row.get? (i / vertical_rows w es)) = es.get? i ∧
      ∀ r c, r < vertical_rows w es → c * vertical_rows w es + r = i →
        r = i % vertical_rows w es ∧ c = i / vertical_rows w es) ∧
    ((lines (display_vertical w es)).map List.length).sum = es.length := by
  have hc := vertical_cols_pos w es
  have hr := vertical_rows_pos w es hne
  have hge := vertical_rows_mul_ge w es
  have hlt := vertical_rows_pred_mul_lt w es hne
  refine ⟨?_, ?_, ?_, ?_, ?_⟩
  · symm
    rw [Nat.ceil_eq_iff (by omega)]
    have hcq : (0 : ℚ) < (vertical_cols w es : ℚ) := by exact_mod_cast hc
    constructor
    · rw [lt_div_iff₀ hcq]
      exact_mod_cast hlt
    · rw [div_le_iff₀ hcq]
      exact_mod_cast hge
  · rw [display_vertical_lines]; simp
  · intro r c hrr
    rw [display_vertical_cell w es r c hrr]
    by_cases h1 : c < vertical_cols w es
    · by_cases h2 : c * vertical_rows w es + r < es.length
      · simp [h1, h2]
      · simp only [h1, h2, and_false, if_true, if_false, List.get?_eq_getElem?]
        exact List.getElem?_eq_none (Nat.le_of_not_lt h2)
    · simp [h1]
  · intro i hi
    have hmod : i % vertical_rows w es < vertical_rows w es := Nat.mod_lt _ (by omega)
    have hdm := Nat.div_add_mod i (vertical_rows w es)
    have hdiv : i / vertical_rows w es < vertical_cols w es := by
      by_contra hcon
      have h1 : vertical_cols w es ≤ i / vertical_rows w es := Nat.le_of_not_lt hcon
      have h2 : vertical_rows w es * vertical_cols w es ≤
          vertical_rows w es * (i / vertical_rows w es) := Nat.mul_le_mul_left _ h1
      omega
    refine ⟨hmod, hdiv, ?_, ?_⟩
    · rw [display_vertical_cell w es _ _ hmod, if_pos hdiv]
      congr 1
      rw [Nat.mul_comm]; exact hdm
    · intro r c hrr hrc
      subst hrc
      constructor
      · rw [Nat.add_comm, Nat.add_mul_mod_self_right, Nat.mod_eq_of_lt hrr]
      · rw [Nat.add_comm, Nat.add_mul_div_right _ _ (by omega), Nat.div_eq_of_lt hrr]; simp
  · rw [← length_read_down, read_down_display_vertical]

/-- C2 at a batch of three names on a ten-column terminal. -/
theorem C2_display_vertical_layout_witness :
    [plain_entry "a", plain_entry "b", plain_entry "c"] ≠ [] ∧
    (lines (display_vertical 10 [plain_entry "a", plain_entry "b", plain_entry "c"])).length =
      vertical_rows 10 [plain_entry "a", plain_entry "b", plain_entry "c"] ∧
    ((lines (display_vertical 10 [plain_entry "a", plain_entry "b", plain_entry "c"])).map
      List.length).sum = 3 :=
  ⟨by decide,
    (C2_display_vertical_layout 10 [plain_entry "a", plain_entry "b", plain_entry "c"]
      (by decide)).2.1,
    (C2_display_vertical_layout 10 [plain_entry "a", plain_entry "b", plain_entry "c"]
      (by decide)).2.2.2.2⟩

/-! ## The horizontal layout -/

/-- The shape of the lines the horizontal loop produces from a given
`curr_width`: the line in progress either receives nothing more or stays
within the terminal width; every later line is non-empty and either holds a
single entry or stays within the terminal width. -/
theorem display_horizontal_loop_lines (w cw : Nat) (es : List FileEntry) (curr : Nat) :
    ∃ l0 ls, lines (display_horizontal_loop w cw es curr ++ [Out.newline]) = l0 :: ls ∧
      (l0 = [] ∨ curr + l0.length * cw ≤ w) ∧
      (es ≠ [] → curr + cw ≤ w → l0 ≠ []) ∧
      (∀ l ∈ ls, l ≠ [] ∧ (l.length = 1 ∨ l.length * cw ≤ w)) := by
  induction es generalizing curr with
  | nil =>
    exact ⟨[], [], by simp [display_horizontal_loop, lines], Or.inl rfl,
      fun h => absurd rfl h, by simp⟩
  | cons e es ih =>
    unfold display_horizontal_loop
    by_cases hwrap : curr + cw > w
    · obtain ⟨l0, ls, hl, h0, _, hls⟩ := ih (0 + cw)
      refine ⟨[], (e :: l0) :: ls, ?_, Or.inl rfl, fun _ hfit => absurd hfit (by omega), ?_⟩
      · simp only [hwrap, if_true, List.cons_append, lines, hl]
      · intro l hl'
        rcases List.mem_cons.1 hl' with rfl | hmem
        · refine ⟨by simp, ?_⟩
          rcases h0 with rfl | h0
          · left; rfl
          · right
            simp only [List.length_cons, Nat.add_mul, Nat.one_mul]
            omega
        · exact hls l hmem
    · obtain ⟨l0, ls, hl, h0, _, hls⟩ := ih (curr + cw)
      refine ⟨e :: l0, ls, ?_, Or.inr ?_, fun _ _ => by simp, hls⟩
      · simp only [hwrap, if_false, List.cons_append, lines, hl]
      · rcases h0 with rfl | h0
        · simp only [List.length_cons, List.length_nil]; omega
        · simp only [List.length_cons, Nat.add_mul, Nat.one_mul]
          omega

/-- When a column is wider than the terminal the horizontal loop breaks the
line before every entry. -/
theorem display_horizontal_loop_lines_wide (w cw : Nat) (hw : w < cw) (es : List FileEntry)
    (curr : Nat) :
    lines (display_horizontal_loop w cw es curr ++ [Out.newline]) =
      [] :: es.map fun e => [e] := by
  induction es generalizing curr with
  | nil => simp [display_horizontal_loop, lines]
  | cons e es ih =>
    unfold display_horizontal_loop
    have hwrap : curr + cw > w := by omega
    simp only [hwrap, if_true, List.cons_append, lines, ih, List.map_cons]

theorem flatten_singletons {α : Type} (l : List α) :
    ([] :: l.map fun e => [e]).flatten = l := by
  induction l with
  | nil => rfl
  | cons a l ih => simpa using ih

/-- C4: every line `display_horizontal` prints has visible width (its number
of cells times `column_width`) at most the terminal width, unless
`column_width` alone exceeds the terminal width, and then no line holds more
than one entry. -/
theorem C4_display_horizontal_width (w : Nat) (es : List FileEntry) :
    (max_name_length es + 2 ≤ w →
      ∀ l ∈ lines (display_horizontal w es), l.length * (max_name_length es + 2) ≤ w) ∧
    (w < max_name_length es + 2 →
      (∀ l ∈ lines (display_horizontal w es), l.length ≤ 1) ∧
      (lines (display_horizontal w es)).flatten = es) := by
  unfold display_horizontal
  simp only [maxlen_loop_zero]
  obtain ⟨l0, ls, hl, h0, _, hls⟩ :=
    display_horizontal_loop_lines w (max_name_length es + 2) es 0
  constructor
  · rw [hl]
    intro hfit l hmem
    rcases List.mem_cons.1 hmem with rfl | hmem
    · rcases h0 with rfl | h0
      · simp
      · omega
    · rcases (hls l hmem).2 with h1 | h1
      · rw [h1]; omega
      · exact h1
  · intro hwide
    refine ⟨?_, by
      rw [display_horizontal_loop_lines_wide w _ hwide es 0]
      exact flatten_singletons es⟩
    rw [hl]
    intro l hmem
    have hsmall : ∀ k : Nat, k * (max_name_length es + 2) ≤ w → k = 0 := by
      intro k hk
      by_contra hk0
      have : 1 * (max_name_length es + 2) ≤ k * (max_name_length es + 2) :=
        Nat.mul_le_mul_right _ (by omega)
      omega
    rcases List.mem_cons.1 hmem with rfl | hmem
    · rcases h0 with rfl | h0
      · simp
      · have := hsmall _ (by omega : l.length * (max_name_length es + 2) ≤ w)
        omega
    · rcases (hls l hmem).2 with h1 | h1
      · omega
      · have := hsmall _ h1
        omega

/-- C5, as the code has it: when `column_width` fits the terminal no newline
is written while `curr_width` is 0, so a non-empty batch is printed without
any empty line; when `column_width` exceeds the terminal width the test also
fires at `curr_width = 0`, so the output is one empty line followed by one
line per entry, none of them empty. -/
theorem C5_display_horizontal_empty_lines (w : Nat) (es : List FileEntry) :
    (max_name_length es + 2 ≤ w → es ≠ [] → [] ∉ lines (display_horizontal w es)) ∧
    (w < max_name_length es + 2 →
      lines (display_horizontal w es) = [] :: es.map fun e => [e]) := by
  unfold display_horizontal
  simp only [maxlen_loop_zero]
  constructor
  · intro hfit hne
    obtain ⟨l0, ls, hl, _, hfirst, hls⟩ :=
      display_horizontal_loop_lines w (max_name_length es + 2) es 0
    rw [hl]
    intro hmem
    rcases List.mem_cons.1 hmem with h | h
    · exact hfirst hne (by omega) h.symm
    · exact (hls [] h).1 rfl
  · intro hwide
    exact display_horizontal_loop_lines_wide w _ hwide es 0

/-! ## The vertical column count, empty batches and empty directories -/

/-- C3: the column count of `display_vertical` is
`max(1, w / (max_name_length + 2))` with integer division, `max_name_length`
being the largest byte length of a name of the batch (the value the `maxlen`
loop computes); a batch whose longest name has 8 bytes gets 8 columns on an
80-column terminal. -/
theorem C3_vertical_column_count (w : Nat) (es : List FileEntry) :
    maxlen_loop es 0 = max_name_length es ∧
    vertical_cols w es = max 1 (w / (max_name_length es + 2)) ∧
    (max_name_length es = 8 → vertical_cols 80 es = 8) := by
  refine ⟨maxlen_loop_zero es, ?_, ?_⟩
  · unfold vertical_cols
    simp only [maxlen_loop_zero]
    split <;> omega
  · intro h
    unfold vertical_cols
    simp only [maxlen_loop_zero, h]
    decide

/-- C3 at a batch whose longest name has 8 bytes. -/
theorem C3_vertical_column_count_witness :
    max_name_length [plain_entry "12345678", plain_entry "ab"] = 8 ∧
    vertical_cols 80 [plain_entry "12345678", plain_entry "ab"] = 8 :=
  ⟨by decide,
    (C3_vertical_column_count 80 [plain_entry "12345678", plain_entry "ab"]).2.2 (by decide)⟩

/-- C5 fails as stated: on a 3-column terminal the single name `abcd`
(`column_width` 6) is preceded by a newline written while `curr_width` is 0,
so the output starts with an empty line. -/
theorem C5_counterexample :
    display_horizontal 3 [plain_entry "abcd"] =
      [Out.newline, Out.cell (plain_entry "abcd") 6, Out.newline] ∧
    [] ∈ lines (display_horizontal 3 [plain_entry "abcd"]) := by
  decide

/-- C6 fails as stated: `display_vertical` writes nothing at all for an empty
batch on an 80-column terminal, not one newline. -/
theorem C6_counterexample :
    display_vertical 80 [] = [] ∧ render (display_vertical 80 []) ≠ cstr "\n" := by
  decide

/-- C6, as the code has it: for an empty batch and every terminal width
`display_horizontal` writes exactly one newline and nothing else, and
`display_vertical` writes nothing (`rows` is 0). -/
theorem C6_empty_batch (w : Nat) :
    display_horizontal w [] = [Out.newline] ∧
    render (display_horizontal w []) = cstr "\n" ∧
    vertical_rows w [] = 0 ∧
    display_vertical w [] = [] := by
  have hr : vertical_rows w [] = 0 := by
    have := vertical_rows_le_length w []
    simpa using this
  refine ⟨rfl, rfl, hr, ?_⟩
  unfold display_vertical
  simp only [hr]
  rfl

theorem filterMap_collect_one_hidden (rd : List Dirent)
    (h : ∀ d ∈ rd, hidden d.d_name = true) : rd.filterMap collect_one = [] := by
  induction rd with
  | nil => rfl
  | cons d rd ih =>
    rw [List.filterMap_cons]
    have hd : collect_one d = none := by simp [collect_one, h d (by simp)]
    rw [hd]
    exact ih fun x hx => h x (List.mem_cons_of_mem _ hx)

/-- C7 fails as stated: with recursion requested, `do_ls` on an empty directory
`d` writes the header line `d:` before the newline, so its output is `d:`
followed by a blank line and not a single newline. -/
theorem C7_counterexample :
    render (do_ls sample_env false false true (cstr "d") (flat_dir [])).stdout =
      cstr "d:\n\n" ∧
    render (do_ls sample_env false false true (cstr "d") (flat_dir [])).stdout ≠ cstr "\n" := by
  decide

/-- C7, as the code has it by design: on an openable directory all of whose
children are hidden, `do_ls` with recursion writes, in every display mode, the
header `<path>:` and then exactly one newline: the bytes of the path, `:`, and
two newline characters, nothing else; with or without recursion it prints no
entry, writes nothing on the error stream, and what it writes apart from the
header is exactly one newline. -/
theorem C7_do_ls_empty_directory (env : Env) (long_flag horizontal_flag recursive_flag : Bool)
    (dir : Name) (readdir : List Dirent) (lstat : Name → Option Stat)
    (opendir : Name → DirStream) (h : ∀ d ∈ readdir, hidden d.d_name = true) :
    do_ls env long_flag horizontal_flag true dir (DirStream.dir readdir lstat opendir) =
      ⟨[Out.header dir, Out.newline], []⟩ ∧
    render (do_ls env long_flag horizontal_flag true dir
        (DirStream.dir readdir lstat opendir)).stdout = dir ++ cstr ":\n" ++ cstr "\n" ∧
    shown (do_ls env long_flag horizontal_flag recursive_flag dir
        (DirStream.dir readdir lstat opendir)).stdout = [] ∧
    (do_ls env long_flag horizontal_flag recursive_flag dir
        (DirStream.dir readdir lstat opendir)).stderr = [] ∧
    (do_ls env long_flag horizontal_flag recursive_flag dir
        (DirStream.dir readdir lstat opendir)).stdout.filter
          (fun o => decide (o ≠ Out.header dir)) = [Out.newline] := by
  have h1 : (do_ls_collect readdir [] false).1 = [] := by
    rw [do_ls_collect_fst, filterMap_collect_one_hidden readdir h]; rfl
  have h2 : (do_ls_collect readdir [] false).2 = false := by
    rw [do_ls_collect_snd]
    simp only [Bool.false_or, List.any_eq_false]
    intro d hd
    simp [h d hd]
  have hmain : ∀ r : Bool, do_ls env long_flag horizontal_flag r dir
      (DirStream.dir readdir lstat opendir) = ⟨[Out.header dir, Out.newline], []⟩ := by
    intro r
    rw [do_ls]
    simp [h1, h2]
  rw [hmain true, hmain recursive_flag]
  refine ⟨rfl, ?_, rfl, rfl, ?_⟩
  · simp [render, Out.render]
  · simp [List.filter_cons]

/-- C7 at a directory that holds only `.git` and `.profile`, in vertical mode
with recursion. -/
theorem C7_do_ls_empty_directory_witness :
    (∀ d ∈ [(⟨cstr ".git", some (stat_with_mode 0o040755)⟩ : Dirent),
        ⟨cstr ".profile", none⟩], hidden d.d_name = true) ∧
    do_ls sample_env false false true (cstr "home")
      (flat_dir [⟨cstr ".git", some (stat_with_mode 0o040755)⟩, ⟨cstr ".profile", none⟩]) =
      ⟨[Out.header (cstr "home"), Out.newline], []⟩ :=
  ⟨by decide,
    (C7_do_ls_empty_directory sample_env false false true (cstr "home")
      [⟨cstr ".git", some (stat_with_mode 0o040755)⟩, ⟨cstr ".profile", none⟩]
      (fun _ => some (stat_with_mode 0o100644)) (fun _ => DirStream.null) (by decide)).1⟩

/-! ## Colours -/

theorem lor_eq_zero_iff (x y : Nat) : x ||| y = 0 ↔ x = 0 ∧ y = 0 := by
  constructor
  · intro h
    have hb : ∀ i, (x.testBit i || y.testBit i) = false := by
      intro i
      rw [← Nat.testBit_or, h]; simp
    constructor
    · apply Nat.zero_of_testBit_eq_false
      intro i
      have := hb i
      simp only [Bool.or_eq_false_iff] at this
      exact this.1
    · apply Nat.zero_of_testBit_eq_false
      intro i
      have := hb i
      simp only [Bool.or_eq_false_iff] at this
      exact this.2
  · rintro ⟨rfl, rfl⟩; rfl

theorem exec_bits_iff (m : Nat) :
    m &&& (S_IXUSR ||| S_IXGRP ||| S_IXOTH) ≠ 0 ↔
      (m &&& S_IXUSR ≠ 0 ∨ m &&& S_IXGRP ≠ 0 ∨ m &&& S_IXOTH ≠ 0) := by
  rw [Nat.and_or_distrib_left, Nat.and_or_distrib_left, Ne, lor_eq_zero_iff, lor_eq_zero_iff]
  tauto

/-- C8: the colour `print_colored_padded` chooses is that of the first rule
that matches in the priority list symlink (magenta), directory (blue), char
device, block device, socket or fifo (reverse video), archive name (red), some
execute bit (green), and none otherwise; a regular file that is not a symlink
and is named `archive.tar.gz` is red whatever its permission bits. -/
theorem C8_color_priority (e : FileEntry) :
    print_colored_padded_color e = spec_color_for e ∧
    (e.name = cstr "archive.tar.gz" → e.is_symlink = false → S_ISREG e.mode = true →
      print_colored_padded_color e = some ANSI_RED) := by
  constructor
  · unfold print_colored_padded_color spec_color_for spec_color_rules
    by_cases h1 : e.is_symlink = true
    · simp [h1, List.find?_cons]
    · by_cases h2 : S_ISDIR e.mode = true
      · simp [h1, h2, List.find?_cons]
      · by_cases h3 : (S_ISCHR e.mode || S_ISBLK e.mode || S_ISSOCK e.mode ||
            S_ISFIFO e.mode) = true
        · simp only [h1, h2, h3, List.find?_cons]; simp
        · by_cases h4 : is_tarball e.name = true
          · simp only [h1, h2, h3, h4, List.find?_cons]; simp
          · by_cases h5 : e.mode &&& (S_IXUSR ||| S_IXGRP ||| S_IXOTH) ≠ 0
            · have h5' := (exec_bits_iff e.mode).1 h5
              simp only [h1, h2, h3, h4, List.find?_cons, decide_eq_true h5']
              simpa using h5
            · have h5' := (not_congr (exec_bits_iff e.mode)).1 h5
              simp only [h1, h2, h3, h4, List.find?_cons, decide_eq_false h5']
              simpa using h5
  · intro hname hsym hreg
    unfold print_colored_padded_color
    replace hreg : e.mode &&& S_IFMT = S_IFREG := by simpa [S_ISREG] using hreg
    have hd : S_ISDIR e.mode = false := by simp [S_ISDIR, hreg]; decide
    have hc : S_ISCHR e.mode = false := by simp [S_ISCHR, hreg]; decide
    have hb : S_ISBLK e.mode = false := by simp [S_ISBLK, hreg]; decide
    have hs : S_ISSOCK e.mode = false := by simp [S_ISSOCK, hreg]; decide
    have hf : S_ISFIFO e.mode = false := by simp [S_ISFIFO, hreg]; decide
    have ht : is_tarball e.name = true := by rw [hname]; decide
    simp [hsym, hd, hc, hb, hs, hf, ht]

/-- C8 at an executable regular file named `archive.tar.gz` (mode 0755). -/
theorem C8_color_priority_witness :
    print_colored_padded_color ⟨cstr "archive.tar.gz", 0o100755, 0, false⟩ = some ANSI_RED :=
  (C8_color_priority ⟨cstr "archive.tar.gz", 0o100755, 0, false⟩).2 rfl rfl (by decide)

/-! ## Archive names -/

theorem strcasecmp_eq_zero_iff (a b : Name) :
    strcasecmp a b = 0 ↔ a.map tolower = b.map tolower := by
  induction a generalizing b with
  | nil => cases b <;> simp [strcasecmp]
  | cons a as ih =>
    cases b with
    | nil => simp [strcasecmp]
    | cons b bs =>
      unfold strcasecmp
      by_cases h : tolower a = tolower b
      · simp [h, ih]
      · by_cases h2 : tolower a < tolower b <;> simp [h, h2]

theorem strstr_isSome_iff (hay needle : Name) :
    (strstr hay needle).isSome = true ↔ needle <:+: hay := by
  induction hay with
  | nil =>
    unfold strstr
    by_cases h : needle = []
    · simp [h]
    · simp [h]
  | cons a as ih =>
    unfold strstr
    rw [List.infix_cons_iff]
    by_cases h : needle.isPrefixOf (a :: as) = true
    · simp only [h, if_true, Option.isSome_some, true_iff]
      exact Or.inl (List.isPrefixOf_iff_prefix.1 h)
    · simp only [h, if_false, Bool.false_eq_true]
      rw [ih]
      constructor
      · exact Or.inr
      · rintro (h' | h')
        · exact absurd (List.isPrefixOf_iff_prefix.2 h') h
        · exact h'

theorem strrchr_eq_none_iff (name : Name) (c : Nat) : strrchr name c = none ↔ c ∉ name := by
  induction name with
  | nil => simp [strrchr]
  | cons a as ih =>
    unfold strrchr
    cases h : strrchr as c with
    | some s =>
      have : c ∈ as := by
        by_contra hc
        rw [ih.2 hc] at h; cases h
      simp [this]
    | none =>
      have hc := ih.1 h
      by_cases hac : a = c
      · simp [hac]
      · simp [hac, hc, Ne.symm hac]

theorem strrchr_eq_some_iff (name : Name) (c : Nat) (s : Name) :
    strrchr name c = some s ↔ ∃ pre t, name = pre ++ c :: t ∧ c ∉ t ∧ s = c :: t := by
  induction name generalizing s with
  | nil => simp [strrchr]
  | cons a as ih =>
    unfold strrchr
    cases h : strrchr as c with
    | some s' =>
      obtain ⟨pre, t, hname, hct, hs⟩ := (ih s').1 h
      simp only [Option.some.injEq]
      constructor
      · rintro rfl
        exact ⟨a :: pre, t, by rw [hname]; rfl, hct, hs⟩
      · rintro ⟨pre2, t2, hname2, hct2, hs2⟩
        have h2 : strrchr as c = some (c :: t2) := by
          cases pre2 with
          | nil =>
            simp only [List.nil_append, List.cons.injEq] at hname2
            have hmem : c ∈ as := by rw [hname]; simp
            rw [hname2.2] at hmem
            exact absurd hmem hct2
          | cons p pre2 =>
            simp only [List.cons_append, List.cons.injEq] at hname2
            exact (ih _).2 ⟨pre2, t2, hname2.2, hct2, rfl⟩
        rw [h] at h2
        rw [hs2]
        exact Option.some.inj h2
    | none =>
      have hc := (strrchr_eq_none_iff as c).1 h
      by_cases hac : a = c
      · subst hac
        simp only [if_true, Option.some.injEq]
        constructor
        · rintro rfl
          exact ⟨[], as, rfl, hc, rfl⟩
        · rintro ⟨pre2, t2, hname2, hct2, hs2⟩
          cases pre2 with
          | nil =>
            simp only [List.nil_append, List.cons.injEq] at hname2
            rw [hs2, hname2.2]
          | cons p pre2 =>
            simp only [List.cons_append, List.cons.injEq] at hname2
            have : a ∈ as := by rw [hname2.2]; simp
            exact absurd this hc
      · simp only [hac, if_false]
        constructor
        · intro h'; cases h'
        · rintro ⟨pre2, t2, hname2, hct2, hs2⟩
          cases pre2 with
          | nil =>
            simp only [List.nil_append, List.cons.injEq] at hname2
            exact absurd hname2.1 hac
          | cons p pre2 =>
            simp only [List.cons_append, List.cons.injEq] at hname2
            have : c ∈ as := by rw [hname2.2]; simp
            exact absurd this hc

/-- C9: `is_tarball` returns true exactly when the name contains a `.` and
either the suffix starting at its last `.` equals one of `.tar`, `.gz`,
`.zip`, `.tgz` up to the case of letters, or the name contains `.tar.gz`; it
returns false on every name without a `.`. -/
theorem C9_is_tarball (name : Name) :
    (is_tarball name = true ↔
      46 ∈ name ∧
      ((∃ pre ext, name = pre ++ 46 :: ext ∧ 46 ∉ ext ∧
          ∃ s ∈ [cstr ".tar", cstr ".gz", cstr ".zip", cstr ".tgz"],
            (46 :: ext).map tolower = s.map tolower) ∨
        cstr ".tar.gz" <:+: name)) ∧
    (46 ∉ name → is_tarball name = false) := by
  unfold is_tarball
  cases h : strrchr name 46 with
  | none =>
    have hdot := (strrchr_eq_none_iff name 46).1 h
    simp [hdot]
  | some ext0 =>
    obtain ⟨pre, t, hname, hct, hext⟩ := (strrchr_eq_some_iff name 46 ext0).1 h
    have hmem : 46 ∈ name := by rw [hname]; simp
    refine ⟨?_, fun hno => absurd hmem hno⟩
    simp only [Bool.or_eq_true, beq_iff_eq, strcasecmp_eq_zero_iff, strstr_isSome_iff]
    constructor
    · intro hor
      refine ⟨hmem, ?_⟩
      rcases hor with (((h1 | h1) | h1) | h1) | h1
      · exact Or.inl ⟨pre, t, hname, hct, cstr ".tar", by simp, by rw [← hext]; exact h1⟩
      · exact Or.inl ⟨pre, t, hname, hct, cstr ".gz", by simp, by rw [← hext]; exact h1⟩
      · exact Or.inl ⟨pre, t, hname, hct, cstr ".zip", by simp, by rw [← hext]; exact h1⟩
      · exact Or.inl ⟨pre, t, hname, hct, cstr ".tgz", by simp, by rw [← hext]; exact h1⟩
      · exact Or.inr h1
    · rintro ⟨_, hor⟩
      rcases hor with ⟨pre2, ext2, hname2, hct2, s, hs, heq⟩ | hinfix
      · have h2 : strrchr name 46 = some (46 :: ext2) :=
          (strrchr_eq_some_iff name 46 _).2 ⟨pre2, ext2, hname2, hct2, rfl⟩
        rw [h] at h2
        have hext2 : ext0 = 46 :: ext2 := Option.some.inj h2
        rw [hext2]
        simp only [List.mem_cons, List.mem_singleton, List.not_mem_nil, or_false] at hs
        rcases hs with rfl | rfl | rfl | rfl
        · exact Or.inl (Or.inl (Or.inl (Or.inl heq)))
        · exact Or.inl (Or.inl (Or.inl (Or.inr heq)))
        · exact Or.inl (Or.inl (Or.inr heq))
        · exact Or.inl (Or.inr heq)
      · exact Or.inr hinfix

/-- C9 at `notes` (no `.`, so not an archive). -/
theorem C9_is_tarball_witness : 46 ∉ cstr "notes" ∧ is_tarball (cstr "notes") = false :=
  ⟨by decide, (C9_is_tarball (cstr "notes")).2 (by decide)⟩

/-! ## Cells -/

theorem mem_display_horizontal_loop (w cw : Nat) (es : List FileEntry) (curr : Nat) (o : Out)
    (h : o ∈ display_horizontal_loop w cw es curr) :
    o = Out.newline ∨ ∃ e ∈ es, o = Out.cell e cw := by
  induction es generalizing curr with
  | nil => simp [display_horizontal_loop] at h
  | cons e es ih =>
    unfold display_horizontal_loop at h
    split at h
    · rcases List.mem_cons.1 h with rfl | h
      · exact Or.inl rfl
      · rcases List.mem_cons.1 h with rfl | h
        · exact Or.inr ⟨e, by simp, rfl⟩
        · rcases ih _ h with h' | ⟨e', he', h'⟩
          · exact Or.inl h'
          · exact Or.inr ⟨e', List.mem_cons_of_mem _ he', h'⟩
    · rcases List.mem_cons.1 h with rfl | h
      · exact Or.inr ⟨e, by simp, rfl⟩
      · rcases ih _ h with h' | ⟨e', he', h'⟩
        · exact Or.inl h'
        · exact Or.inr ⟨e', List.mem_cons_of_mem _ he', h'⟩

/-- Every cell of either grid layout is an entry of the batch, printed with
`col_width = max_name_length + 2`. -/
theorem cell_mem_display (w : Nat) (es : List FileEntry) (e : FileEntry) (k : Int)
    (h : Out.cell e k ∈ display_horizontal w es ∨ Out.cell e k ∈ display_vertical w es) :
    e ∈ es ∧ k = ((max_name_length es + 2 : Nat) : Int) := by
  rcases h with h | h
  · unfold display_horizontal at h
    simp only [maxlen_loop_zero] at h
    rcases List.mem_append.1 h with h | h
    · rcases mem_display_horizontal_loop _ _ _ _ _ h with h' | ⟨e', he', h'⟩
      · cases h'
      · cases h'; exact ⟨he', rfl⟩
    · simp at h
  · unfold display_vertical at h
    simp only [maxlen_loop_zero, List.mem_flatMap, List.mem_append, List.mem_filterMap,
      List.mem_singleton] at h
    obtain ⟨r, _, h | h⟩ := h
    · obtain ⟨c, _, hc⟩ := h
      split at hc
      · cases hc
        exact ⟨List.get_mem _ _ _, rfl⟩
      · cases hc
    · cases h

theorem print_colored_padded_length (e : FileEntry) (k : Int) :
    (print_colored_padded e k).length =
      (match print_colored_padded_color e with
        | some color => color.length + ANSI_RESET.length
        | none => 0) + (e.name.length + (k - (e.name.length : Int)).toNat) := by
  unfold print_colored_padded
  cases print_colored_padded_color e with
  | none => simp
  | some color =>
    simp only [List.length_append, List.length_replicate]
    generalize (k - (e.name.length : Int)).toNat = p
    ring

theorem visible_width_eq (e : FileEntry) (k : Int) :
    visible_width e k = e.name.length + (k - (e.name.length : Int)).toNat := by
  unfold visible_width
  rw [print_colored_padded_length]
  omega

/-- C10: `print_colored_padded` writes the name, wrapped in the colour
sequence and the reset sequence when a colour applies, and then exactly
`max(0, col_width - byte_length(name))` spaces, after the reset sequence; the
visible width of a cell is therefore the name length plus that padding,
whatever the colour, and it is `col_width` for every cell of the horizontal
and of the vertical layout, whose `col_width` is `max_name_length + 2`. -/
theorem C10_cell_padding (e : FileEntry) (col_width : Int) :
    print_colored_padded e col_width =
      (match print_colored_padded_color e with
        | some color => color ++ e.name ++ ANSI_RESET
        | none => e.name) ++
      List.replicate (max 0 (col_width - (e.name.length : Int))).toNat 32 ∧
    visible_width e col_width =
      e.name.length + (max 0 (col_width - (e.name.length : Int))).toNat ∧
    (∀ e2 : FileEntry, e2.name = e.name → visible_width e2 col_width = visible_width e col_width) ∧
    (∀ (w : Nat) (es : List FileEntry),
      (Out.cell e col_width ∈ display_horizontal w es ∨
        Out.cell e col_width ∈ display_vertical w es) →
      col_width = ((max_name_length es + 2 : Nat) : Int) ∧
      (visible_width e col_width : Int) = col_width) := by
  have hmax : (max 0 (col_width - (e.name.length : Int))).toNat =
      (col_width - (e.name.length : Int)).toNat := by
    rcases le_total 0 (col_width - (e.name.length : Int)) with h | h
    · rw [max_eq_right h]
    · rw [max_eq_left h]; simp [Int.toNat_of_nonpos h]
  refine ⟨?_, ?_, ?_, ?_⟩
  · rw [hmax]; rfl
  · rw [hmax]; exact visible_width_eq e col_width
  · intro e2 h2
    rw [visible_width_eq, visible_width_eq, h2]
  · intro w es hmem
    obtain ⟨he, hk⟩ := cell_mem_display w es e col_width hmem
    refine ⟨hk, ?_⟩
    have hlen := length_le_max_name_length he
    rw [visible_width_eq, hk]
    push_cast
    omega

/-- C10 at the two-byte name `ab` in a vertical layout whose longest name has
three bytes: the cell is five columns wide. -/
theorem C10_cell_padding_witness :
    (visible_width (plain_entry "ab") 5 : Int) = 5 :=
  ((C10_cell_padding (plain_entry "ab") 5).2.2.2 80 [plain_entry "abc", plain_entry "ab"]
    (Or.inr (by decide))).2

/-! ## What a directory listing displays -/

theorem shown_display_horizontal_loop (w cw : Nat) (es : List FileEntry) (curr : Nat) :
    shown (display_horizontal_loop w cw es curr) = es := by
  induction es generalizing curr with
  | nil => rfl
  | cons e es ih =>
    unfold display_horizontal_loop
    split <;> simp [shown, ih]

theorem shown_display_horizontal (w : Nat) (es : List FileEntry) :
    shown (display_horizontal w es) = es := by
  unfold display_horizontal
  simp only [shown_append, shown_display_horizontal_loop]
  simp [shown]

/-- When `localtime` converts the modification time of every entry whose
display-time `lstat` succeeds, the long-mode loop prints exactly these
entries, in order. -/
theorem shown_do_ls_long (env : Env) (lstat : Name → Option Stat) (es : List FileEntry)
    (hconv : ∀ e ∈ es, ∀ st, lstat e.name = some st →
      (env.localtime st.st_mtime).isSome = true) :
    shown (do_ls_long env lstat es) = es.filter fun e => (lstat e.name).isSome := by
  induction es with
  | nil => rfl
  | cons e es ih =>
    have ih := ih fun x hx => hconv x (List.mem_cons_of_mem _ hx)
    unfold do_ls_long
    cases h : lstat e.name with
    | none => simp [h, ih, List.filter_cons]
    | some st =>
      cases ht : env.localtime st.st_mtime with
      | none =>
        have := hconv e (List.mem_cons_self _ _) st h
        simp [ht] at this
      | some timebuf => simp [h, ht, ih, shown, List.filter_cons]

/-- When `localtime` converts the modification time of every entry whose
display-time `lstat` succeeds, the long-mode loop runs to its end. -/
theorem killed_not_mem_do_ls_long (env : Env) (lstat : Name → Option Stat)
    (es : List FileEntry)
    (hconv : ∀ e ∈ es, ∀ st, lstat e.name = some st →
      (env.localtime st.st_mtime).isSome = true) :
    Out.killed ∉ do_ls_long env lstat es := by
  induction es with
  | nil => simp [do_ls_long]
  | cons e es ih =>
    have ih := ih fun x hx => hconv x (List.mem_cons_of_mem _ hx)
    unfold do_ls_long
    cases h : lstat e.name with
    | none => simpa [h] using ih
    | some st =>
      cases ht : env.localtime st.st_mtime with
      | none =>
        have := hconv e (List.mem_cons_self _ _) st h
        simp [ht] at this
      | some timebuf => simpa [h, ht] using ih

theorem killed_not_mem_display (w : Nat) (es : List FileEntry) :
    Out.killed ∉ display_horizontal w es ∧ Out.killed ∉ display_vertical w es := by
  constructor
  · unfold display_horizontal
    intro hm
    rcases List.mem_append.1 hm with hm | hm
    · rcases mem_display_horizontal_loop _ _ _ _ _ hm with h' | ⟨e', _, h'⟩
      · cases h'
      · cases h'
    · simp at hm
  · unfold display_vertical
    simp only [List.mem_flatMap, List.mem_append, List.mem_filterMap, List.mem_singleton]
    rintro ⟨r, _, h | h⟩
    · obtain ⟨c, _, hc⟩ := h
      split at hc
      · cases hc
      · cases hc
    · cases h

/-- The entries of the sorted batch bear names of records of the directory. -/
theorem collected_convert (env : Env) (readdir : List Dirent) (lstat : Name → Option Stat)
    (hconv : ∀ d ∈ readdir, ∀ st, lstat d.d_name = some st →
      (env.localtime st.st_mtime).isSome = true) :
    ∀ e ∈ qsort (readdir.filterMap collect_one), ∀ st,
      lstat e.name = some st → (env.localtime st.st_mtime).isSome = true := by
  intro e he st hst
  obtain ⟨d, hd, hc⟩ := List.mem_filterMap.1 ((qsort_perm _).mem_iff.1 he)
  have hname : e.name = d.d_name := by
    unfold collect_one at hc
    split at hc
    · cases hc
    · cases hl : d.lstat with
      | none => simp [hl] at hc
      | some st0 =>
        simp only [hl, Option.map_some', Option.some.injEq] at hc
        rw [← hc]
  rw [hname] at hst
  exact hconv d hd st hst

theorem read_down_nil_cons {α : Type} (G : List (List α)) :
    read_down ([] :: G) = read_down G := by
  unfold read_down
  simp

/-- The standard output of a run of `do_ls` that does not recurse. -/
theorem do_ls_stdout_flat (env : Env) (long_flag horizontal_flag : Bool) (dir : Name)
    (readdir : List Dirent) (lstat : Name → Option Stat) (opendir : Name → DirStream) :
    (do_ls env long_flag horizontal_flag false dir (DirStream.dir readdir lstat opendir)).stdout =
      if readdir.filterMap collect_one = [] then [Out.header dir, Out.newline]
      else Out.header dir ::
        do_ls_display env long_flag horizontal_flag lstat (qsort (readdir.filterMap collect_one)) := by
  rw [do_ls]
  simp only [do_ls_collect_fst, List.nil_append, List.length_eq_zero]
  split <;> simp

/-- The names `do_ls` displays for a directory, in fill order, are those of the
sorted batch, less those whose display-time `lstat` fails in long mode,
`localtime` converting the modification time of the others. -/
theorem displayed_names_do_ls (env : Env) (long_flag horizontal_flag : Bool) (dir : Name)
    (readdir : List Dirent) (lstat : Name → Option Stat) (opendir : Name → DirStream)
    (hconv : long_flag = true → ∀ d ∈ readdir, ∀ st, lstat d.d_name = some st →
      (env.localtime st.st_mtime).isSome = true) :
    displayed_names long_flag horizontal_flag
        (do_ls env long_flag horizontal_flag false dir
          (DirStream.dir readdir lstat opendir)).stdout =
      ((qsort (readdir.filterMap collect_one)).filter fun e =>
        !long_flag || (lstat e.name).isSome).map FileEntry.name := by
  rw [do_ls_stdout_flat]
  by_cases hempty : readdir.filterMap collect_one = []
  · rw [if_pos hempty, hempty]
    cases long_flag <;> cases horizontal_flag <;>
      simp [displayed_names, shown, lines, read_down, qsort]
  · rw [if_neg hempty]
    unfold displayed_names do_ls_display
    cases long_flag with
    | true =>
      have hall := collected_convert env readdir lstat (hconv rfl)
      simp only [Bool.true_or, if_true, shown, shown_do_ls_long env lstat _ hall, Bool.not_true,
        Bool.false_or]
    | false =>
      cases horizontal_flag with
      | true =>
        simp only [Bool.false_or, if_true, shown, shown_display_horizontal, Bool.not_false,
          Bool.true_or, List.filter_true, Bool.false_eq_true, if_false]
      | false =>
        simp only [Bool.or_self, Bool.false_eq_true, if_false, lines, read_down_nil_cons,
          read_down_display_vertical, Bool.not_false, Bool.true_or, List.filter_true]

/-- A run of `do_ls` that does not recurse is not killed when, in long mode,
`localtime` converts the modification time of every child whose display-time
`lstat` succeeds. -/
theorem killed_not_mem_do_ls_flat (env : Env) (long_flag horizontal_flag : Bool) (dir : Name)
    (readdir : List Dirent) (lstat : Name → Option Stat) (opendir : Name → DirStream)
    (hconv : long_flag = true → ∀ d ∈ readdir, ∀ st, lstat d.d_name = some st →
      (env.localtime st.st_mtime).isSome = true) :
    Out.killed ∉ (do_ls env long_flag horizontal_flag false dir
      (DirStream.dir readdir lstat opendir)).stdout := by
  rw [do_ls_stdout_flat]
  split
  · simp
  · intro hm
    rcases List.mem_cons.1 hm with hm | hm
    · cases hm
    · unfold do_ls_display at hm
      cases long_flag with
      | true =>
        exact killed_not_mem_do_ls_long env lstat _
          (collected_convert env readdir lstat (hconv rfl)) (by simpa using hm)
      | false =>
        cases horizontal_flag with
        | true => exact (killed_not_mem_display _ _).1 (by simpa using hm)
        | false => exact (killed_not_mem_display _ _).2 (by simpa using hm)

theorem names_filter_collect (readdir : List Dirent) (p : Name → Bool) :
    ((readdir.filterMap collect_one).filter fun e => p e.name).map FileEntry.name =
      (readdir.filter fun d => !hidden d.d_name && d.lstat.isSome && p d.d_name).map
        Dirent.d_name := by
  induction readdir with
  | nil => rfl
  | cons d rd ih =>
    rw [List.filterMap_cons, List.filter_cons]
    cases hh : hidden d.d_name with
    | true =>
      have hc : collect_one d = none := by simp [collect_one, hh]
      simpa [hc] using ih
    | false =>
      cases hl : d.lstat with
      | none =>
        have hc : collect_one d = none := by simp [collect_one, hh, hl]
        simpa [hc] using ih
      | some st =>
        have hc : collect_one d =
            some ⟨d.d_name, st.st_mode, st.st_size, S_ISLNK st.st_mode⟩ := by
          simp [collect_one, hh, hl]
        cases hp : p d.d_name with
        | true => simp [hc, List.filter_cons, hp, ih]
        | false => simp [hc, List.filter_cons, hp, ih]

/-- Recursion only adds output after the listing of the directory itself. -/
theorem do_ls_stdout_flat_initial (env : Env) (long_flag horizontal_flag recursive_flag : Bool)
    (dir : Name) (readdir : List Dirent) (lstat : Name → Option Stat)
    (opendir : Name → DirStream) :
    (do_ls env long_flag horizontal_flag false dir (DirStream.dir readdir lstat opendir)).stdout
      <+: (do_ls env long_flag horizontal_flag recursive_flag dir
        (DirStream.dir readdir lstat opendir)).stdout := by
  cases recursive_flag with
  | false => exact List.prefix_refl _
  | true =>
    rw [do_ls, do_ls]
    simp only
    split
    · exact List.prefix_refl _
    · simp only [if_true, Bool.false_eq_true, if_false]
      generalize qsort (do_ls_collect readdir [] false).1 = es
      have key : ∀ (l : List FileEntry) (a b : Output), a.stdout <+: b.stdout →
          a.stdout <+: (l.foldl (fun out e =>
            if S_ISDIR e.mode = true then
              if strcmp e.name (cstr ".") = 0 ∨ strcmp e.name (cstr "..") = 0 then out
              else (out.append ⟨[Out.newline], []⟩).append
                (do_ls env long_flag horizontal_flag true (dir ++ cstr "/" ++ e.name)
                  (opendir e.name))
            else out) b).stdout := by
        intro l
        induction l with
        | nil => intro a b h; exact h
        | cons e l ih =>
          intro a b h
          rw [List.foldl_cons]
          apply ih
          split
          · split
            · exact h
            · simp only [Output.append, List.append_assoc]
              exact h.trans (List.prefix_append _ _)
          · exact h
      exact key es ⟨Out.header dir :: _, _⟩ _ (List.prefix_refl _)

/-- C1 fails as stated: in a directory whose only child `a` cannot be
examined by `lstat`, `do_ls` displays no name in vertical mode, although `a`
does not begin with a dot. -/
theorem C1_counterexample :
    ¬ (displayed_names false false
        (do_ls sample_env false false false (cstr "d")
          (flat_dir [⟨cstr "a", none⟩])).stdout).Perm
      (([(⟨cstr "a", none⟩ : Dirent)].filter fun d => !hidden d.d_name).map Dirent.d_name) := by
  intro h
  have hlen := h.length_eq
  revert hlen
  decide

/-- C1, as the code has it: for every directory listing and every display
mode, the names `do_ls` displays for the directory, read in the fill order of
the mode, are exactly the children whose name does not begin with a dot and
whose `lstat` succeeded in the collection loop (in long mode: and succeeds
again at display time, `localtime` converting the modification time it
reports), each exactly once, in byte-wise lexicographic order; with recursion
the same listing comes first in the output; and the run is not killed while it
writes this listing. -/
theorem C1_displayed_names (env : Env) (long_flag horizontal_flag recursive_flag : Bool)
    (dir : Name) (readdir : List Dirent) (lstat : Name → Option Stat)
    (opendir : Name → DirStream)
    (hconv : long_flag = true → ∀ d ∈ readdir, ∀ st, lstat d.d_name = some st →
      (env.localtime st.st_mtime).isSome = true) :
    (displayed_names long_flag horizontal_flag
        (do_ls env long_flag horizontal_flag false dir
          (DirStream.dir readdir lstat opendir)).stdout).Perm
      ((readdir.filter fun d =>
        !hidden d.d_name && d.lstat.isSome && (!long_flag || (lstat d.d_name).isSome)).map
        Dirent.d_name) ∧
    (displayed_names long_flag horizontal_flag
        (do_ls env long_flag horizontal_flag false dir
          (DirStream.dir readdir lstat opendir)).stdout).Sorted (· ≤ ·) ∧
    (do_ls env long_flag horizontal_flag false dir (DirStream.dir readdir lstat opendir)).stdout
      <+: (do_ls env long_flag horizontal_flag recursive_flag dir
        (DirStream.dir readdir lstat opendir)).stdout ∧
    Out.killed ∉ (do_ls env long_flag horizontal_flag false dir
      (DirStream.dir readdir lstat opendir)).stdout := by
  refine ⟨?_, ?_, do_ls_stdout_flat_initial env long_flag horizontal_flag recursive_flag dir
    readdir lstat opendir, killed_not_mem_do_ls_flat env long_flag horizontal_flag dir readdir
    lstat opendir hconv⟩
  · rw [displayed_names_do_ls env long_flag horizontal_flag dir readdir lstat opendir hconv,
      ← names_filter_collect readdir (fun n => !long_flag || (lstat n).isSome)]
    exact ((qsort_perm _).filter _).map _
  · rw [displayed_names_do_ls env long_flag horizontal_flag dir readdir lstat opendir hconv]
    have hs := qsort_names_sorted (readdir.filterMap collect_one)
    unfold List.Sorted at hs ⊢
    exact hs.sublist ((List.filter_sublist _).map _)

/-- C1 in long mode at the directory with the children `x` and `y` where the
display-time `lstat` fails on `x`: the names displayed are those of the
children whose two `lstat` calls succeed. -/
theorem C1_displayed_names_witness :
    (true = true → ∀ d ∈ [(⟨cstr "x", some (stat_with_mode 0o100644)⟩ : Dirent),
        ⟨cstr "y", some (stat_with_mode 0o100644)⟩], ∀ st,
      (fun n => if n = cstr "x" then none else some (stat_with_mode 0o100644)) d.d_name =
        some st → (sample_env.localtime st.st_mtime).isSome = true) ∧
    (displayed_names true false
        (do_ls sample_env true false false (cstr "d") dir_x_vanished).stdout).Perm
      (([(⟨cstr "x", some (stat_with_mode 0o100644)⟩ : Dirent),
          ⟨cstr "y", some (stat_with_mode 0o100644)⟩].filter fun d =>
        !hidden d.d_name && d.lstat.isSome &&
          (!true || ((fun n => if n = cstr "x" then none else some (stat_with_mode 0o100644))
            d.d_name).isSome)).map Dirent.d_name) ∧
    displayed_names true false
        (do_ls sample_env true false false (cstr "d") dir_x_vanished).stdout = [cstr "y"] :=
  ⟨fun _ _ _ _ _ => rfl,
    (C1_displayed_names sample_env true false false (cstr "d")
      [⟨cstr "x", some (stat_with_mode 0o100644)⟩, ⟨cstr "y", some (stat_with_mode 0o100644)⟩]
      (fun n => if n = cstr "x" then none else some (stat_with_mode 0o100644))
      (fun _ => DirStream.null) (fun _ _ _ _ _ => rfl)).1,
    by decide⟩

/-! ## The permission string -/

theorem land_two_pow_ne_zero (m j : Nat) : m &&& 2 ^ j ≠ 0 ↔ m.testBit j = true := by
  rw [Nat.and_two_pow]
  cases h : m.testBit j
  · simp
  · simp

theorem perm_char (m j : Nat) (c : Nat) :
    (if m &&& 2 ^ j ≠ 0 then c else 45) = if m.testBit j then c else 45 := by
  by_cases h : m.testBit j = true
  · rw [if_pos ((land_two_pow_ne_zero m j).2 h), if_pos h]
  · rw [if_neg (fun hc => h ((land_two_pow_ne_zero m j).1 hc)), if_neg h]

/-- C11: `mode_to_str` writes exactly 10 characters; the first is `d` for a
directory, `l` for a symlink, `c` for a char device, `b` for a block device,
`p` for a fifo, `s` for a socket and `-` for any other type; characters 1 to 9
are `rwxrwxrwx` (owner, group, other), each replaced by `-` exactly when the
corresponding permission bit (bit 8 down to bit 0 of the mode) is unset. -/
theorem C11_mode_to_str (mode : Nat) :
    (mode_to_str mode).length = 10 ∧
    (S_ISDIR mode = true → (mode_to_str mode).get? 0 = some (byte 'd')) ∧
    (S_ISLNK mode = true → (mode_to_str mode).get? 0 = some (byte 'l')) ∧
    (S_ISCHR mode = true → (mode_to_str mode).get? 0 = some (byte 'c')) ∧
    (S_ISBLK mode = true → (mode_to_str mode).get? 0 = some (byte 'b')) ∧
    (S_ISFIFO mode = true → (mode_to_str mode).get? 0 = some (byte 'p')) ∧
    (S_ISSOCK mode = true → (mode_to_str mode).get? 0 = some (byte 's')) ∧
    (S_ISDIR mode = false → S_ISLNK mode = false → S_ISCHR mode = false →
      S_ISBLK mode = false → S_ISFIFO mode = false → S_ISSOCK mode = false →
      (mode_to_str mode).get? 0 = some (byte '-')) ∧
    (∀ k, k < 9 → (mode_to_str mode).get? (k + 1) =
      some (if mode.testBit (8 - k) then (cstr "rwxrwxrwx").getD k 0 else byte '-')) := by
  have hd : byte 'd' = 100 := by decide
  have hl : byte 'l' = 108 := by decide
  have hc : byte 'c' = 99 := by decide
  have hb : byte 'b' = 98 := by decide
  have hp : byte 'p' = 112 := by decide
  have hs : byte 's' = 115 := by decide
  have hm : byte '-' = 45 := by decide
  refine ⟨rfl, ?_, ?_, ?_, ?_, ?_, ?_, ?_, ?_⟩
  · intro h; simp [mode_to_str, h, hd]
  · intro h
    have h' : mode &&& S_IFMT = S_IFLNK := by simpa [S_ISLNK] using h
    have h1 : S_ISDIR mode = false := by simp [S_ISDIR, h']; decide
    simp [mode_to_str, h, h1, hl]
  · intro h
    have h' : mode &&& S_IFMT = S_IFCHR := by simpa [S_ISCHR] using h
    have h1 : S_ISDIR mode = false := by simp [S_ISDIR, h']; decide
    have h2 : S_ISLNK mode = false := by simp [S_ISLNK, h']; decide
    simp [mode_to_str, h, h1, h2, hc]
  · intro h
    have h' : mode &&& S_IFMT = S_IFBLK := by simpa [S_ISBLK] using h
    have h1 : S_ISDIR mode = false := by simp [S_ISDIR, h']; decide
    have h2 : S_ISLNK mode = false := by simp [S_ISLNK, h']; decide
    have h3 : S_ISCHR mode = false := by simp [S_ISCHR, h']; decide
    simp [mode_to_str, h, h1, h2, h3, hb]
  · intro h
    have h' : mode &&& S_IFMT = S_IFIFO := by simpa [S_ISFIFO] using h
    have h1 : S_ISDIR mode = false := by simp [S_ISDIR, h']; decide
    have h2 : S_ISLNK mode = false := by simp [S_ISLNK, h']; decide
    have h3 : S_ISCHR mode = false := by simp [S_ISCHR, h']; decide
    have h4 : S_ISBLK mode = false := by simp [S_ISBLK, h']; decide
    simp [mode_to_str, h, h1, h2, h3, h4, hp]
  · intro h
    have h' : mode &&& S_IFMT = S_IFSOCK := by simpa [S_ISSOCK] using h
    have h1 : S_ISDIR mode = false := by simp [S_ISDIR, h']; decide
    have h2 : S_ISLNK mode = false := by simp [S_ISLNK, h']; decide
    have h3 : S_ISCHR mode = false := by simp [S_ISCHR, h']; decide
    have h4 : S_ISBLK mode = false := by simp [S_ISBLK, h']; decide
    have h5 : S_ISFIFO mode = false := by simp [S_ISFIFO, h']; decide
    simp [mode_to_str, h, h1, h2, h3, h4, h5, hs]
  · intro h1 h2 h3 h4 h5 h6
    simp [mode_to_str, h1, h2, h3, h4, h5, h6, hm]
  · intro k hk
    have e8 : S_IRUSR = 2 ^ 8 := by decide
    have e7 : S_IWUSR = 2 ^ 7 := by decide
    have e6 : S_IXUSR = 2 ^ 6 := by decide
    have e5 : S_IRGRP = 2 ^ 5 := by decide
    have e4 : S_IWGRP = 2 ^ 4 := by decide
    have e3 : S_IXGRP = 2 ^ 3 := by decide
    have e2 : S_IROTH = 2 ^ 2 := by decide
    have e1 : S_IWOTH = 2 ^ 1 := by decide
    have e0 : S_IXOTH = 2 ^ 0 := by decide
    have gr : (cstr "rwxrwxrwx") = [114, 119, 120, 114, 119, 120, 114, 119, 120] := by decide
    rw [gr, hm]
    unfold mode_to_str
    rw [e8, e7, e6, e5, e4, e3, e2, e1, e0]
    simp only [perm_char]
    interval_cases k <;> rfl

/-- C11 at mode 0120777, a symlink with every permission bit set. -/
theorem C11_mode_to_str_witness :
    S_ISLNK 0o120777 = true ∧ (mode_to_str 0o120777).get? 0 = some (byte 'l') :=
  ⟨by decide, (C11_mode_to_str 0o120777).2.2.1 (by decide)⟩

/-! ## Sorting, collection and the choice of display -/

/-- Two arrangements of a batch that are both sorted by `cmp_entry` list the
names in the same order. -/
theorem sorted_names_unique (es l1 l2 : List FileEntry) (h1 : l1.Perm es) (h2 : l2.Perm es)
    (s1 : l1.Sorted fun a b => cmp_entry a b ≤ 0) (s2 : l2.Sorted fun a b => cmp_entry a b ≤ 0) :
    l1.map FileEntry.name = l2.map FileEntry.name := by
  have hs : ∀ l : List FileEntry, (l.Sorted fun a b => cmp_entry a b ≤ 0) →
      (l.map FileEntry.name).Sorted (· ≤ ·) := by
    intro l hl
    unfold List.Sorted at hl ⊢
    rw [List.pairwise_map]
    exact hl.imp fun {a b} hab => (strcmp_le_iff a.name b.name).1 hab
  exact List.eq_of_perm_of_sorted ((h1.trans h2.symm).map _) (hs l1 s1) (hs l2 s2)

/-- C12: the sequence `do_ls` hands to the display step is `qsort` of the
collected batch: a permutation of the batch whose names are non-decreasing in
byte-wise lexicographic order, `cmp_entry` being `strcmp` on the names; every
arrangement sorted by `cmp_entry` lists the names in that same order; and the
names `b.txt`, `a.txt`, `c.txt` are displayed as `a.txt`, `b.txt`, `c.txt` in
each of the three modes. -/
theorem C12_sorted_batch (es : List FileEntry) :
    (qsort es).Perm es ∧
    ((qsort es).map FileEntry.name).Sorted (· ≤ ·) ∧
    (∀ a b : FileEntry, cmp_entry a b = strcmp a.name b.name ∧
      (cmp_entry a b ≤ 0 ↔ a.name ≤ b.name)) ∧
    (∀ l : List FileEntry, l.Perm es → (l.Sorted fun a b => cmp_entry a b ≤ 0) →
      l.map FileEntry.name = (qsort es).map FileEntry.name) ∧
    (∀ (env : Env) (long_flag horizontal_flag : Bool) (dir : Name) (readdir : List Dirent)
      (lstat : Name → Option Stat) (opendir : Name → DirStream),
      (do_ls_collect readdir [] false).1 = es → es ≠ [] →
      (do_ls env long_flag horizontal_flag false dir
        (DirStream.dir readdir lstat opendir)).stdout =
        Out.header dir :: do_ls_display env long_flag horizontal_flag lstat (qsort es)) ∧
    (qsort [plain_entry "b.txt", plain_entry "a.txt", plain_entry "c.txt"]).map FileEntry.name =
      [cstr "a.txt", cstr "b.txt", cstr "c.txt"] ∧
    (∀ long_flag horizontal_flag : Bool,
      displayed_names long_flag horizontal_flag
        (do_ls sample_env long_flag horizontal_flag false (cstr "d")
          (flat_dir [⟨cstr "b.txt", some (stat_with_mode 0o100644)⟩,
            ⟨cstr "a.txt", some (stat_with_mode 0o100644)⟩,
            ⟨cstr "c.txt", some (stat_with_mode 0o100644)⟩])).stdout =
        [cstr "a.txt", cstr "b.txt", cstr "c.txt"]) := by
  refine ⟨qsort_perm es, qsort_names_sorted es, ?_, ?_, ?_, by decide, by decide⟩
  · intro a b
    exact ⟨rfl, by simp only [cmp_entry, strcmp_le_iff]⟩
  · intro l hp hs
    exact sorted_names_unique es l (qsort es) hp (qsort_perm es) hs (qsort_sorted es)
  · intro env long_flag horizontal_flag dir readdir lstat opendir hes hne
    rw [do_ls_stdout_flat]
    rw [do_ls_collect_fst, List.nil_append] at hes
    rw [hes, if_neg hne]

/-- C12 at a directory whose records come in the order `b.txt`, `a.txt`. -/
theorem C12_sorted_batch_witness :
    (do_ls sample_env false true false (cstr "d")
      (flat_dir [⟨cstr "b.txt", some (stat_with_mode 0o100644)⟩,
        ⟨cstr "a.txt", some (stat_with_mode 0o100644)⟩])).stdout =
      Out.header (cstr "d") :: do_ls_display sample_env false true
        (fun _ => some (stat_with_mode 0o100644))
        (qsort [plain_entry "b.txt", plain_entry "a.txt"]) :=
  (C12_sorted_batch [plain_entry "b.txt", plain_entry "a.txt"]).2.2.2.2.1 sample_env false true
    (cstr "d") _ _ (fun _ => DirStream.null) (by decide) (by decide)

theorem mem_filterMap_collect_one {rd : List Dirent} {e : FileEntry}
    (h : e ∈ rd.filterMap collect_one) :
    hidden e.name = false ∧
      ∃ d ∈ rd, ∃ st, d.lstat = some st ∧
        e = ⟨d.d_name, st.st_mode, st.st_size, S_ISLNK st.st_mode⟩ := by
  obtain ⟨d, hd, hc⟩ := List.mem_filterMap.1 h
  unfold collect_one at hc
  cases hh : hidden d.d_name with
  | true => simp [hh] at hc
  | false =>
    cases hl : d.lstat with
    | none => simp [hh, hl] at hc
    | some st =>
      simp only [hh, hl, Bool.false_eq_true, if_false, Option.map_some',
        Option.some.injEq] at hc
      subst hc
      exact ⟨hh, d, hd, st, hl, rfl⟩

/-- C16: an `lstat` failure on one child does not stop the collection of the
others: every child whose name does not begin with a dot and whose `lstat`
succeeds is in the batch `do_ls` collects, with the mode and size `lstat`
reported, whatever happens to the other children. -/
theorem C16_siblings_collected (readdir : List Dirent) (d : Dirent) (st : Stat)
    (hd : d ∈ readdir) (hvisible : hidden d.d_name = false) (hstat : d.lstat = some st) :
    (⟨d.d_name, st.st_mode, st.st_size, S_ISLNK st.st_mode⟩ : FileEntry) ∈
      (do_ls_collect readdir [] false).1 := by
  rw [do_ls_collect_fst, List.nil_append]
  apply List.mem_filterMap.2
  exact ⟨d, hd, by simp [collect_one, hvisible, hstat]⟩

/-- C16 at a directory whose first child fails `lstat` and whose second does
not. -/
theorem C16_siblings_collected_witness :
    (⟨cstr "ok", 0o100644, 0, false⟩ : FileEntry) ∈
      (do_ls_collect [⟨cstr "gone", none⟩, ⟨cstr "ok", some (stat_with_mode 0o100644)⟩]
        [] false).1 :=
  C16_siblings_collected [⟨cstr "gone", none⟩, ⟨cstr "ok", some (stat_with_mode 0o100644)⟩]
    ⟨cstr "ok", some (stat_with_mode 0o100644)⟩ (stat_with_mode 0o100644)
    (by decide) (by decide) rfl

/-- C17: `do_ls` selects exactly one display for each combination of the
flags: the long listing when `long_flag` is set, whatever `horizontal_flag`
is; `display_horizontal` when only `horizontal_flag` is set; `display_vertical`
when neither is set; and its output for a non-empty batch is the header
followed by that display of the sorted batch. -/
theorem C17_display_mode (env : Env) (horizontal_flag : Bool) (lstat : Name → Option Stat)
    (entries : List FileEntry) :
    do_ls_display env true horizontal_flag lstat entries = do_ls_long env lstat entries ∧
    do_ls_display env false true lstat entries =
      display_horizontal (get_term_width env.ioctl) entries ∧
    do_ls_display env false false lstat entries =
      display_vertical (get_term_width env.ioctl) entries ∧
    (∀ (long_flag : Bool) (dir : Name) (readdir : List Dirent) (opendir : Name → DirStream),
      (do_ls_collect readdir [] false).1 ≠ [] →
      (do_ls env long_flag horizontal_flag false dir
        (DirStream.dir readdir lstat opendir)).stdout =
        Out.header dir :: do_ls_display env long_flag horizontal_flag lstat
          (qsort (do_ls_collect readdir [] false).1)) := by
  refine ⟨rfl, rfl, rfl, ?_⟩
  intro long_flag dir readdir opendir hne
  rw [do_ls_stdout_flat]
  rw [do_ls_collect_fst, List.nil_append] at hne ⊢
  rw [if_neg hne]

/-- C17 at a directory with one visible child, with both flags set: the long
listing is what is written. -/
theorem C17_display_mode_witness :
    (do_ls sample_env true true false (cstr "d")
      (flat_dir [⟨cstr "a", some (stat_with_mode 0o100644)⟩])).stdout =
      Out.header (cstr "d") :: do_ls_display sample_env true true
        (fun _ => some (stat_with_mode 0o100644))
        (qsort (do_ls_collect [⟨cstr "a", some (stat_with_mode 0o100644)⟩] [] false).1) :=
  (C17_display_mode sample_env true (fun _ => some (stat_with_mode 0o100644)) []).2.2.2 true
    (cstr "d") [⟨cstr "a", some (stat_with_mode 0o100644)⟩] (fun _ => DirStream.null)
    (by decide)

/-! ## The recursion of do_ls -/

theorem Output.append_nil (a : Output) : a.append ⟨[], []⟩ = a := by
  cases a; simp [Output.append]

theorem Output.append_assoc (a b c : Output) :
    (a.append b).append c = a.append (b.append c) := by
  simp [Output.append]

theorem foldl_append_eq (g : FileEntry → Output) (es : List FileEntry) (init : Output) :
    es.foldl (fun out e => out.append (g e)) init =
      ⟨init.stdout ++ es.flatMap (fun e => (g e).stdout),
        init.stderr ++ es.flatMap (fun e => (g e).stderr)⟩ := by
  induction es generalizing init with
  | nil => cases init; simp
  | cons e es ih =>
    rw [List.foldl_cons, ih]
    simp [Output.append, List.flatMap_cons]

/-- The output of `do_ls` on an openable directory: the listing of the
directory, then, with recursion, what each entry of the sorted batch
contributes. -/
theorem do_ls_dir_eq (env : Env) (long_flag horizontal_flag recursive_flag : Bool)
    (dir : Name) (readdir : List Dirent) (lstat : Name → Option Stat)
    (opendir : Name → DirStream) :
    do_ls env long_flag horizontal_flag recursive_flag dir
        (DirStream.dir readdir lstat opendir) =
      let perr := if (do_ls_collect readdir [] false).2 then
        [Err.perror (cstr "readdir failed")] else []
      if readdir.filterMap collect_one = [] then ⟨[Out.header dir, Out.newline], perr⟩
      else if recursive_flag then
        ⟨Out.header dir ::
            do_ls_display env long_flag horizontal_flag lstat
              (qsort (readdir.filterMap collect_one)) ++
            (qsort (readdir.filterMap collect_one)).flatMap (fun e =>
              (do_ls_descend env long_flag horizontal_flag recursive_flag dir opendir e).stdout),
          perr ++ (qsort (readdir.filterMap collect_one)).flatMap (fun e =>
              (do_ls_descend env long_flag horizontal_flag recursive_flag dir opendir e).stderr)⟩
      else
        ⟨Out.header dir ::
            do_ls_display env long_flag horizontal_flag lstat
              (qsort (readdir.filterMap collect_one)), perr⟩ := by
  rw [do_ls]
  simp only [do_ls_collect_fst, List.nil_append, List.length_eq_zero]
  by_cases hE : readdir.filterMap collect_one = []
  · simp [hE]
  · simp only [hE, if_false]
    cases recursive_flag with
    | false => simp
    | true =>
      simp only [if_true]
      have hf : (fun (out : Output) (e : FileEntry) =>
          if S_ISDIR e.mode = true then
            if strcmp e.name (cstr ".") = 0 ∨ strcmp e.name (cstr "..") = 0 then out
            else (out.append ⟨[Out.newline], []⟩).append
              (do_ls env long_flag horizontal_flag true (dir ++ cstr "/" ++ e.name)
                (opendir e.name))
          else out) =
          fun out e => out.append (do_ls_descend env long_flag horizontal_flag true dir
            opendir e) := by
        funext out e
        unfold do_ls_descend
        split
        · split
          · rw [Output.append_nil]
          · rw [Output.append_assoc]
        · rw [Output.append_nil]
      rw [hf, foldl_append_eq]

/-! ## Hidden children -/

theorem cell_mem_do_ls_long (env : Env) (lstat : Name → Option Stat) (es : List FileEntry)
    (e : FileEntry) (k : Int) (h : Out.cell e k ∈ do_ls_long env lstat es) : e ∈ es := by
  induction es with
  | nil => simp [do_ls_long] at h
  | cons x xs ih =>
    unfold do_ls_long at h
    cases hl : lstat x.name with
    | none =>
      simp only [hl] at h
      exact List.mem_cons_of_mem _ (ih h)
    | some st =>
      cases ht : env.localtime st.st_mtime with
      | none => simp [hl, ht] at h
      | some timebuf =>
        simp only [hl, ht, List.mem_cons] at h
        rcases h with h | h | h | h
        · cases h
        · cases h; exact List.mem_cons_self _ _
        · cases h
        · exact List.mem_cons_of_mem _ (ih h)

theorem cell_mem_do_ls_display (env : Env) (long_flag horizontal_flag : Bool)
    (lstat : Name → Option Stat) (es : List FileEntry) (e : FileEntry) (k : Int)
    (h : Out.cell e k ∈ do_ls_display env long_flag horizontal_flag lstat es) : e ∈ es := by
  unfold do_ls_display at h
  cases long_flag with
  | true => exact cell_mem_do_ls_long env lstat es e k (by simpa using h)
  | false =>
    cases horizontal_flag with
    | true => exact (cell_mem_display _ es e k (Or.inl (by simpa using h))).1
    | false => exact (cell_mem_display _ es e k (Or.inr (by simpa using h))).1

/-- No entry printed anywhere in the output of `do_ls`, recursion included,
has a name that begins with a dot. -/
theorem cell_not_hidden (env : Env) (long_flag horizontal_flag recursive_flag : Bool)
    (d : DirStream) : ∀ (dir : Name) (e : FileEntry) (k : Int),
    Out.cell e k ∈ (do_ls env long_flag horizontal_flag recursive_flag dir d).stdout →
      hidden e.name = false := by
  induction d with
  | null => intro dir e k h; simp [do_ls] at h
  | dir readdir lstat opendir ih =>
    intro dir e k h
    rw [do_ls_dir_eq] at h
    simp only at h
    have hbatch : ∀ x, x ∈ qsort (readdir.filterMap collect_one) → hidden x.name = false :=
      fun x hx => (mem_filterMap_collect_one ((qsort_perm _).mem_iff.1 hx)).1
    split at h
    · simp at h
    · split at h
      · simp only [List.mem_cons, List.mem_append, List.mem_flatMap] at h
        rcases h with (h | h) | ⟨x, _, hx⟩
        · cases h
        · exact hbatch e (cell_mem_do_ls_display _ _ _ _ _ _ _ h)
        · unfold do_ls_descend at hx
          split at hx
          · split at hx
            · simp at hx
            · simp only [Output.append, List.singleton_append, List.mem_cons] at hx
              rcases hx with hx | hx
              · cases hx
              · exact ih _ _ _ _ hx
          · simp at hx
      · simp only [List.mem_cons] at h
        rcases h with h | h
        · cases h
        · exact hbatch e (cell_mem_do_ls_display _ _ _ _ _ _ _ h)

theorem do_ls_collect_filter_hidden (rd : List Dirent) :
    rd.filterMap collect_one = (rd.filter fun d => !hidden d.d_name).filterMap collect_one := by
  induction rd with
  | nil => rfl
  | cons d rd ih =>
    cases hh : hidden d.d_name with
    | true =>
      have hc : collect_one d = none := by simp [collect_one, hh]
      simp [List.filterMap_cons, List.filter_cons, hh, hc, ih]
    | false =>
      simp only [List.filterMap_cons, List.filter_cons, hh, Bool.not_false, if_true]
      rw [ih]

/-- C13: no entry of the batch `do_ls` collects has a name beginning with a
dot (so none is `.` or `..`); the batch is that of the listing without the
children whose name begins with a dot, the loop leaving its state unchanged on
each of them; the collection
does not depend on the display mode or on recursion, and no entry printed
anywhere in the output of `do_ls`, in any mode and with or without recursion,
has a name beginning with a dot. -/
theorem C13_hidden_skipped (env : Env) (long_flag horizontal_flag recursive_flag : Bool)
    (dir : Name) (d : DirStream) (readdir : List Dirent) :
    (∀ e ∈ (do_ls_collect readdir [] false).1,
      hidden e.name = false ∧ e.name ≠ cstr "." ∧ e.name ≠ cstr "..") ∧
    (do_ls_collect readdir [] false).1 =
      (do_ls_collect (readdir.filter fun c => !hidden c.d_name) [] false).1 ∧
    (∀ (c : Dirent) (rest : List Dirent) (entries : List FileEntry) (errno : Bool),
      hidden c.d_name = true →
      do_ls_collect (c :: rest) entries errno = do_ls_collect rest entries errno) ∧
    (∀ (e : FileEntry) (k : Int),
      Out.cell e k ∈ (do_ls env long_flag horizontal_flag recursive_flag dir d).stdout →
        hidden e.name = false) := by
  refine ⟨?_, ?_, ?_, cell_not_hidden env long_flag horizontal_flag recursive_flag d dir⟩
  · intro e he
    rw [do_ls_collect_fst, List.nil_append] at he
    have hh := (mem_filterMap_collect_one he).1
    refine ⟨hh, ?_, ?_⟩
    · intro hdot; rw [hdot] at hh; exact absurd hh (by decide)
    · intro hdot; rw [hdot] at hh; exact absurd hh (by decide)
  · rw [do_ls_collect_fst, do_ls_collect_fst, List.nil_append, List.nil_append]
    exact do_ls_collect_filter_hidden readdir
  · intro c rest entries errno hc
    have hhead : c.d_name.head? = some 46 := by simpa [hidden] using hc
    rw [do_ls_collect, if_pos hhead]

/-- C13 at a recursive vertical listing of a directory that holds `.git`,
`..` and `src`: the one entry printed is `src`. -/
theorem C13_hidden_skipped_witness :
    hidden (cstr "src") = false :=
  (C13_hidden_skipped sample_env false false true (cstr "d")
    (flat_dir [⟨cstr ".git", some (stat_with_mode 0o040755)⟩,
      ⟨cstr "..", some (stat_with_mode 0o040755)⟩,
      ⟨cstr "src", some (stat_with_mode 0o040755)⟩]) []).2.2.2
    ⟨cstr "src", 0o040755, 0, false⟩ 5 (by decide)

/-! ## The recursive walk -/

/-- C15 fails as stated on `ls-v1.6.0.c`: in long mode the entry `x`, whose
display-time `lstat` fails, gets no line at all; only the line of `y` is
written and the byte `x` occurs nowhere in the output. -/
theorem C15_counterexample :
    render (do_ls sample_env true false false (cstr "d") dir_x_vanished).stdout =
      cstr "d:\n-rw-r--r--  1 ? ?      0 Jan  1 00:00 y\n" ∧
    byte 'x' ∉ render (do_ls sample_env true false false (cstr "d") dir_x_vanished).stdout := by
  decide

/-- C15, as the code has it: in long mode `do_ls` of `ls-v1.6.0.c` writes
nothing for an entry whose display-time `lstat` fails and goes on with the
next entry, so that, `localtime` converting the modification times of the
others, the entries printed are exactly those whose `lstat` succeeds, in
order; `do_ls` of `ls-v1.5.0.c` writes for such an entry the placeholder line
`?????????? ? ? ? ?      ? <name>` and goes on with the next entry. -/
theorem C15_display_lstat_failure (env : Env) (lstat : Name → Option Stat)
    (readlink : Name → Option Name) (e : FileEntry) (es : List FileEntry)
    (h : lstat e.name = none) :
    do_ls_long env lstat (e :: es) = do_ls_long env lstat es ∧
    ((∀ x ∈ es, ∀ st, lstat x.name = some st → (env.localtime st.st_mtime).isSome = true) →
      shown (do_ls_long env lstat (e :: es)) = es.filter (fun x => (lstat x.name).isSome) ∧
      Out.killed ∉ do_ls_long env lstat (e :: es)) ∧
    do_ls_long_v150 env lstat readlink (e :: es) =
      cstr "?????????? ? ? ? ?      ? " ++ e.name ++ cstr "\n" ++
        do_ls_long_v150 env lstat readlink es := by
  have h1 : do_ls_long env lstat (e :: es) = do_ls_long env lstat es := by
    rw [do_ls_long]; simp only [h]
  refine ⟨h1, ?_, ?_⟩
  · intro hconv
    rw [h1, shown_do_ls_long env lstat es hconv]
    exact ⟨rfl, killed_not_mem_do_ls_long env lstat es hconv⟩
  · rw [do_ls_long_v150]; simp only [h]

/-- C15 at the batch `x`, `y` where the display-time `lstat` fails on `x`. -/
theorem C15_display_lstat_failure_witness :
    shown (do_ls_long sample_env
        (fun n => if n = cstr "x" then none else some (stat_with_mode 0o100644))
        [plain_entry "x", plain_entry "y"]) =
      [plain_entry "x", plain_entry "y"].tail.filter
        (fun x => ((fun n => if n = cstr "x" then none else some (stat_with_mode 0o100644))
          x.name).isSome) :=
  ((C15_display_lstat_failure sample_env
    (fun n => if n = cstr "x" then none else some (stat_with_mode 0o100644))
    (fun _ => none) (plain_entry "x") [plain_entry "y"] (by decide)).2.1
    (fun _ _ _ _ => rfl)).1

/-! ## Header lines -/

/-- C23: `get_term_width` returns 80 when the terminal query fails or reports
a column count that is not positive, and the reported column count otherwise;
its result is at least 1. -/
theorem C23_get_term_width (ioctl : Option Nat) :
    (ioctl = none → get_term_width ioctl = 80) ∧
    (∀ ws_col, ioctl = some ws_col → ¬ 0 < ws_col → get_term_width ioctl = 80) ∧
    (∀ ws_col, ioctl = some ws_col → 0 < ws_col → get_term_width ioctl = ws_col) ∧
    1 ≤ get_term_width ioctl := by
  refine ⟨?_, ?_, ?_, ?_⟩
  · rintro rfl; rfl
  · rintro ws_col rfl h; simp [get_term_width, h]
  · rintro ws_col rfl h; simp [get_term_width, h]
  · cases ioctl with
    | none => simp [get_term_width]
    | some c =>
      simp only [get_term_width]
      split <;> omega

/-- C23 at a terminal that reports 132 columns. -/
theorem C23_get_term_width_witness : get_term_width (some 132) = 132 :=
  (C23_get_term_width (some 132)).2.2.1 132 rfl (by decide)

theorem do_ls_descend_null (env : Env) (long_flag horizontal_flag recursive_flag : Bool)
    (dir : Name) (opendir : Name → DirStream) (e : FileEntry)
    (hdir : S_ISDIR e.mode = true) (hvis : hidden e.name = false)
    (hnull : opendir e.name = DirStream.null) :
    do_ls_descend env long_flag horizontal_flag recursive_flag dir opendir e =
      ⟨[Out.newline], [Err.cannot_open (dir ++ cstr "/" ++ e.name)]⟩ := by
  have h1 : ¬ strcmp e.name (cstr ".") = 0 := by
    rw [strcmp_eq_zero_iff]; intro hdot; rw [hdot] at hvis; exact absurd hvis (by decide)
  have h2 : ¬ strcmp e.name (cstr "..") = 0 := by
    rw [strcmp_eq_zero_iff]; intro hdot; rw [hdot] at hvis; exact absurd hvis (by decide)
  unfold do_ls_descend
  simp only [hdir, if_true, h1, h2, or_self, if_false, hnull, do_ls, Output.append,
    List.append_nil, List.nil_append]

/-- C21: on a path that cannot be opened `do_ls` writes the message
`Cannot open directory: <path>` on the error stream and nothing on standard
output, and returns; the rest of the run is unaffected: in a multi-target run
the output after that target is that of the loop on the remaining targets, and
in a recursive walk the output is the listing followed by the contribution of
every entry of the sorted batch in turn, an unopenable subdirectory
contributing only the blank line its parent writes and its error message. -/
theorem C21_cannot_open (env : Env) (long_flag horizontal_flag recursive_flag : Bool)
    (dir : Name) :
    do_ls env long_flag horizontal_flag recursive_flag dir DirStream.null =
      ⟨[], [Err.cannot_open dir]⟩ ∧
    (∀ (fs : Name → DirStream) (multiple : Bool) (rest : List Name),
      fs dir = DirStream.null →
      main_loop env long_flag horizontal_flag recursive_flag fs multiple (dir :: rest) =
        (⟨(if multiple then [Out.listing_of dir] else []) ++
            (if rest ≠ [] then [Out.newline] else []),
          [Err.cannot_open dir]⟩ : Output).append
          (main_loop env long_flag horizontal_flag recursive_flag fs multiple rest)) ∧
    (∀ (readdir : List Dirent) (lstat : Name → Option Stat) (opendir : Name → DirStream),
      readdir.filterMap collect_one ≠ [] →
      do_ls env long_flag horizontal_flag true dir (DirStream.dir readdir lstat opendir) =
        ⟨Out.header dir ::
            do_ls_display env long_flag horizontal_flag lstat
              (qsort (readdir.filterMap collect_one)) ++
            (qsort (readdir.filterMap collect_one)).flatMap (fun e =>
              (do_ls_descend env long_flag horizontal_flag true dir opendir e).stdout),
          (if (do_ls_collect readdir [] false).2 then [Err.perror (cstr "readdir failed")]
            else []) ++
            (qsort (readdir.filterMap collect_one)).flatMap (fun e =>
              (do_ls_descend env long_flag horizontal_flag true dir opendir e).stderr)⟩) ∧
    (∀ (opendir : Name → DirStream) (e : FileEntry),
      S_ISDIR e.mode = true → hidden e.name = false → opendir e.name = DirStream.null →
      do_ls_descend env long_flag horizontal_flag recursive_flag dir opendir e =
        ⟨[Out.newline], [Err.cannot_open (dir ++ cstr "/" ++ e.name)]⟩) := by
  refine ⟨by rw [do_ls], ?_, ?_, ?_⟩
  · intro fs multiple rest hnull
    rw [main_loop, hnull, do_ls]
    cases multiple <;> by_cases hr : rest = [] <;> simp [Output.append, hr]
  · intro readdir lstat opendir hne
    rw [do_ls_dir_eq]
    simp only [hne, if_false, if_true]
  · intro opendir e hdir hvis hnull
    exact do_ls_descend_null env long_flag horizontal_flag recursive_flag dir opendir e
      hdir hvis hnull

/-- C21 at a run on the targets `gone` (which cannot be opened) and `d` (an
empty directory), without flags. -/
theorem C21_cannot_open_witness :
    main_loop sample_env false false false
        (fun n => if n = cstr "gone" then DirStream.null else flat_dir []) true
        [cstr "gone", cstr "d"] =
      (⟨[Out.listing_of (cstr "gone"), Out.newline], [Err.cannot_open (cstr "gone")]⟩ :
        Output).append
        (main_loop sample_env false false false
          (fun n => if n = cstr "gone" then DirStream.null else flat_dir []) true [cstr "d"]) :=
  (C21_cannot_open sample_env false false false (cstr "gone")).2.1
    (fun n => if n = cstr "gone" then DirStream.null else flat_dir []) true [cstr "d"]
    (if_pos rfl)

/-! ## Separators between targets -/

/-- C24: for a non-empty batch, the cells `display_vertical` prints in a row
are contiguous from column 0 (the loop prints the cell of row `r`, column `c`
exactly when `c * rows + r` is an index, and then it printed that of every
column to the left), so the k-th cell on a printed line is the cell of column
k; every one of the `rows` rows has a cell in column 0, so no printed line is
empty; and `rows` is at most the number of entries. -/
theorem C24_vertical_rows_contiguous (w : Nat) (es : List FileEntry) (hne : es ≠ []) :
    (∀ r c c2, c * vertical_rows w es + r < es.length → c2 < c →
      c2 * vertical_rows w es + r < es.length) ∧
    (∀ r c, r < vertical_rows w es →
      ((lines (display_vertical w es)).get? r).bind (fun row => row.get? c) =
        if c < vertical_cols w es then es.get? (c * vertical_rows w es + r) else none) ∧
    (∀ r, r < vertical_rows w es → 0 * vertical_rows w es + r < es.length) ∧
    (lines (display_vertical w es)).length = vertical_rows w es ∧
    [] ∉ lines (display_vertical w es) ∧
    1 ≤ vertical_rows w es ∧
    vertical_rows w es ≤ es.length := by
  have hle := vertical_rows_le_length w es
  have hpos := vertical_rows_pos w es hne
  have hc := vertical_cols_pos w es
  refine ⟨?_, ?_, ?_, ?_, ?_, hpos, hle⟩
  · intro r c c2 h hlt
    have : c2 * vertical_rows w es ≤ c * vertical_rows w es :=
      Nat.mul_le_mul_right _ (Nat.le_of_lt hlt)
    omega
  · intro r c hr
    exact display_vertical_cell w es r c hr
  · intro r hr; omega
  · rw [display_vertical_lines]; simp
  · intro hmem
    rw [display_vertical_lines] at hmem
    obtain ⟨r, hr, hrow⟩ := List.mem_map.1 hmem
    have hr' : r < vertical_rows w es := List.mem_range.1 hr
    have h0 := filterMap_range_getElem? (fun c => es[c * vertical_rows w es + r]?)
      (vertical_cell_none_succ es _ r) (vertical_cols w es) 0
    rw [hrow, if_pos (by omega)] at h0
    have hidx : 0 * vertical_rows w es + r < es.length := by omega
    rw [List.getElem?_eq_getElem hidx] at h0
    simp at h0

/-- C24 at a batch of three names on a ten-column terminal. -/
theorem C24_vertical_rows_contiguous_witness :
    [] ∉ lines (display_vertical 10 [plain_entry "a", plain_entry "b", plain_entry "c"]) :=
  (C24_vertical_rows_contiguous 10 [plain_entry "a", plain_entry "b", plain_entry "c"]
    (by decide)).2.2.2.2.1

/-- C25: when `column_width = max_name_length + 2` is at most the terminal
width `w`, every row `display_vertical` prints has at most `column_count`
cells, hence visible width at most `column_count * column_width`, which is at
most `w`. -/
theorem C25_vertical_row_width (w : Nat) (es : List FileEntry)
    (hfit : max_name_length es + 2 ≤ w) :
    ∀ row ∈ lines (display_vertical w es),
      row.length ≤ vertical_cols w es ∧
      row.length * (max_name_length es + 2) ≤
        vertical_cols w es * (max_name_length es + 2) ∧
      vertical_cols w es * (max_name_length es + 2) ≤ w := by
  intro row hrow
  have hlen : row.length ≤ vertical_cols w es := by
    rw [display_vertical_lines] at hrow
    obtain ⟨r, _, rfl⟩ := List.mem_map.1 hrow
    have := List.length_filterMap_le (fun c => es[c * vertical_rows w es + r]?)
      (List.range (vertical_cols w es))
    simpa using this
  refine ⟨hlen, Nat.mul_le_mul_right _ hlen, ?_⟩
  unfold vertical_cols
  simp only [maxlen_loop_zero]
  have hdiv : 1 ≤ w / (max_name_length es + 2) :=
    (Nat.le_div_iff_mul_le (by omega)).2 (by omega)
  rw [if_neg (by omega)]
  exact Nat.div_mul_le_self w _

/-- C25 at a batch of three one-byte names on a ten-column terminal, whose one
row holds the three names. -/
theorem C25_vertical_row_width_witness :
    max_name_length [plain_entry "a", plain_entry "b", plain_entry "c"] + 2 ≤ 10 ∧
    [plain_entry "a", plain_entry "b", plain_entry "c"].length *
        (max_name_length [plain_entry "a", plain_entry "b", plain_entry "c"] + 2) ≤
      vertical_cols 10 [plain_entry "a", plain_entry "b", plain_entry "c"] *
        (max_name_length [plain_entry "a", plain_entry "b", plain_entry "c"] + 2) ∧
    vertical_cols 10 [plain_entry "a", plain_entry "b", plain_entry "c"] *
      (max_name_length [plain_entry "a", plain_entry "b", plain_entry "c"] + 2) ≤ 10 :=
  ⟨by decide,
    (C25_vertical_row_width 10 [plain_entry "a", plain_entry "b", plain_entry "c"] (by decide)
      [plain_entry "a", plain_entry "b", plain_entry "c"] (by decide)).2⟩

/-! ## Lines of the horizontal layout -/

/-- The lines the horizontal loop produces when `j` cells are already on the
current line and `k = w / cw` cells fit on a line. -/
theorem display_horizontal_loop_fill (w cw : Nat) (hcw : 0 < cw) (es : List FileEntry) :
    ∀ j, j ≤ w / cw → 1 ≤ w / cw →
    ∃ l0 ls, lines (display_horizontal_loop w cw es (j * cw) ++ [Out.newline]) = l0 :: ls ∧
      l0 ++ ls.flatten = es ∧
      l0.length ≤ w / cw - j ∧
      (ls ≠ [] → l0.length = w / cw - j) ∧
      (es ≠ [] → j < w / cw → l0 ≠ []) ∧
      (∀ l ∈ ls, 1 ≤ l.length ∧ l.length ≤ w / cw) ∧
      (∀ l ∈ ls.dropLast, l.length = w / cw) := by
  induction es with
  | nil =>
    intro j _ _
    exact ⟨[], [], by simp [display_horizontal_loop, lines], rfl, by simp, by simp,
      fun h => absurd rfl h, by simp, by simp⟩
  | cons e es ih =>
    intro j hj hk
    unfold display_horizontal_loop
    have htest : j * cw + cw > w ↔ j = w / cw := by
      have h1 : (j + 1 ≤ w / cw ↔ (j + 1) * cw ≤ w) := Nat.le_div_iff_mul_le hcw
      have h2 : (j + 1) * cw = j * cw + cw := by ring
      constructor
      · intro h; by_contra hne
        have : j + 1 ≤ w / cw := by omega
        have := h1.1 this
        omega
      · intro h
        by_contra hle
        have : (j + 1) * cw ≤ w := by omega
        have := h1.2 this
        omega
    by_cases hwrap : j * cw + cw > w
    · have hjk := htest.1 hwrap
      have h0 : 0 + cw = 1 * cw := by ring
      obtain ⟨l0, ls, hl, hcat, hlen, hfull, _, hls, hdrop⟩ := ih 1 hk hk
      refine ⟨[], (e :: l0) :: ls, ?_, ?_, by simp, ?_, ?_, ?_, ?_⟩
      · rw [if_pos hwrap]
        simp only [List.cons_append, lines, List.append_eq, h0, hl]
      · simp [← hcat]
      · intro _; simp; omega
      · intro _ hlt; omega
      · intro l hmem
        rcases List.mem_cons.1 hmem with rfl | hmem
        · simp only [List.length_cons]; omega
        · exact hls l hmem
      · intro l hmem
        cases ls with
        | nil => simp at hmem
        | cons x xs =>
          rw [List.dropLast_cons₂] at hmem
          rcases List.mem_cons.1 hmem with rfl | hmem
          · have := hfull (by simp)
            simp only [List.length_cons]; omega
          · exact hdrop l hmem
    · have hjk : j < w / cw := by
        rcases Nat.lt_or_ge j (w / cw) with h | h
        · exact h
        · exact absurd (htest.2 (by omega)) hwrap
      have h1 : j * cw + cw = (j + 1) * cw := by ring
      obtain ⟨l0, ls, hl, hcat, hlen, hfull, _, hls, hdrop⟩ := ih (j + 1) (by omega) hk
      refine ⟨e :: l0, ls, ?_, ?_, ?_, ?_, fun _ _ => by simp, hls, hdrop⟩
      · rw [if_neg hwrap]
        simp only [List.cons_append, lines, List.append_eq, h1, hl]
      · simp [← hcat]
      · simp only [List.length_cons]; omega
      · intro hne
        have := hfull hne
        simp only [List.length_cons]; omega

/-- C26: for a non-empty batch and a terminal width `w` that holds at least
one column, every line `display_horizontal` prints except the last holds
exactly `w / column_width` cells, which is the column count `display_vertical`
computes; the last line holds between 1 and `w / column_width` cells; and the
lines, read left to right and top to bottom, are the entries in input
order. -/
theorem C26_horizontal_lines (w : Nat) (es : List FileEntry) (hne : es ≠ [])
    (hfit : max_name_length es + 2 ≤ w) :
    (∀ l ∈ (lines (display_horizontal w es)).dropLast,
      l.length = w / (max_name_length es + 2)) ∧
    (∃ last, (lines (display_horizontal w es)).getLast? = some last ∧
      1 ≤ last.length ∧ last.length ≤ w / (max_name_length es + 2)) ∧
    (lines (display_horizontal w es)).flatten = es ∧
    vertical_cols w es = w / (max_name_length es + 2) := by
  have hcw : 0 < max_name_length es + 2 := by omega
  have hk : 1 ≤ w / (max_name_length es + 2) := (Nat.le_div_iff_mul_le hcw).2 (by omega)
  obtain ⟨l0, ls, hl, hcat, hlen, hfull, hfirst, hls, hdrop⟩ :=
    display_horizontal_loop_fill w (max_name_length es + 2) hcw es 0 (Nat.zero_le _) hk
  have hl0 : l0 ≠ [] := hfirst hne (by omega)
  have hl0pos : 1 ≤ l0.length := List.length_pos.2 hl0
  have hlines : lines (display_horizontal w es) = l0 :: ls := by
    unfold display_horizontal
    simp only [maxlen_loop_zero]
    have h0 : (0 : Nat) = 0 * (max_name_length es + 2) := by simp
    rw [h0]; exact hl
  rw [hlines]
  refine ⟨?_, ?_, ?_, ?_⟩
  · intro l hmem
    cases ls with
    | nil => simp at hmem
    | cons x xs =>
      rw [List.dropLast_cons₂] at hmem
      rcases List.mem_cons.1 hmem with rfl | hmem
      · have := hfull (by simp); omega
      · exact hdrop l hmem
  · cases hls' : ls.getLast? with
    | none =>
      have : ls = [] := List.getLast?_eq_none_iff.1 hls'
      subst this
      exact ⟨l0, rfl, hl0pos, by omega⟩
    | some last =>
      have hmem : last ∈ ls := List.mem_of_getLast?_eq_some hls'
      refine ⟨last, ?_, hls last hmem⟩
      cases ls with
      | nil => simp at hls'
      | cons x xs => rw [List.getLast?_cons_cons]; exact hls'
  · simpa using hcat
  · unfold vertical_cols
    simp only [maxlen_loop_zero]
    rw [if_neg (by omega)]

/-- C26 at a batch of three one-byte names on a seven-column terminal: two
cells on the first line, one on the last. -/
theorem C26_horizontal_lines_witness :
    (lines (display_horizontal 7
      [plain_entry "a", plain_entry "b", plain_entry "c"])).flatten =
      [plain_entry "a", plain_entry "b", plain_entry "c"] :=
  (C26_horizontal_lines 7 [plain_entry "a", plain_entry "b", plain_entry "c"]
    (by decide) (by decide)).2.2.1

/-! ## Independence of the enumeration order -/

theorem collected_names_nodup {rd : List Dirent} (h : (rd.map Dirent.d_name).Nodup) :
    ((rd.filterMap collect_one).map FileEntry.name).Nodup := by
  have hn := names_filter_collect rd (fun _ => true)
  simp only [List.filter_true] at hn
  rw [hn]
  exact h.sublist ((List.filter_sublist _).map _)

/-- Sorting two enumerations of the same batch gives the same array when the
names are pairwise distinct. -/
theorem qsort_eq_of_perm {l1 l2 : List FileEntry} (hp : l1.Perm l2)
    (hn : (l1.map FileEntry.name).Nodup) : qsort l1 = qsort l2 := by
  haveI : IsAntisymm FileEntry
      (fun a b => cmp_entry a b ≤ 0 ∧ (a.name = b.name → a = b)) :=
    ⟨fun a b hab hba => hab.2 (le_antisymm ((strcmp_le_iff _ _).1 hab.1)
      ((strcmp_le_iff _ _).1 hba.1))⟩
  have hsorted : ∀ l : List FileEntry, l.Perm l1 →
      (qsort l).Sorted (fun a b => cmp_entry a b ≤ 0 ∧ (a.name = b.name → a = b)) := by
    intro l hl
    have h1 := qsort_sorted l
    have h2 : ((qsort l).map FileEntry.name).Nodup :=
      (((qsort_perm l).trans hl).map _).nodup_iff.2 hn
    unfold List.Nodup at h2
    rw [List.pairwise_map] at h2
    unfold List.Sorted at h1 ⊢
    exact (h1.and h2).imp fun {a b} hab => ⟨hab.1, fun hname => absurd hname hab.2⟩
  exact List.eq_of_perm_of_sorted (((qsort_perm l1).trans hp).trans (qsort_perm l2).symm)
    (hsorted l1 (List.Perm.refl _)) (hsorted l2 hp.symm)

/-- C27: the output of `do_ls` does not depend on the order in which
`readdir` reports the children: for two enumerations of a directory that are
permutations of one another, with pairwise distinct child names and the same
`lstat` results, `do_ls` writes the same on standard output and on the error
stream, in every display mode, for every terminal width, with or without
recursion. -/
theorem C27_enumeration_order (env : Env) (long_flag horizontal_flag recursive_flag : Bool)
    (dir : Name) (readdir1 readdir2 : List Dirent) (lstat : Name → Option Stat)
    (opendir : Name → DirStream) (hperm : readdir1.Perm readdir2)
    (hdistinct : (readdir1.map Dirent.d_name).Nodup) :
    do_ls env long_flag horizontal_flag recursive_flag dir
        (DirStream.dir readdir1 lstat opendir) =
      do_ls env long_flag horizontal_flag recursive_flag dir
        (DirStream.dir readdir2 lstat opendir) := by
  have hE : (readdir1.filterMap collect_one).Perm (readdir2.filterMap collect_one) :=
    hperm.filterMap _
  have hq : qsort (readdir1.filterMap collect_one) = qsort (readdir2.filterMap collect_one) :=
    qsort_eq_of_perm hE (collected_names_nodup hdistinct)
  have hempty : readdir1.filterMap collect_one = [] ↔ readdir2.filterMap collect_one = [] := by
    constructor
    · intro h; rw [h] at hE; exact List.perm_nil.1 hE.symm
    · intro h; rw [h] at hE; exact List.perm_nil.1 hE
  have herr : (do_ls_collect readdir1 [] false).2 = (do_ls_collect readdir2 [] false).2 := by
    rw [do_ls_collect_snd, do_ls_collect_snd]
    simp only [Bool.false_or]
    rw [Bool.eq_iff_iff]
    simp only [List.any_eq_true]
    constructor
    · rintro ⟨d, hd, h⟩; exact ⟨d, hperm.mem_iff.1 hd, h⟩
    · rintro ⟨d, hd, h⟩; exact ⟨d, hperm.mem_iff.2 hd, h⟩
  rw [do_ls_dir_eq, do_ls_dir_eq]
  simp only [hq, herr]
  by_cases h1 : readdir1.filterMap collect_one = []
  · rw [if_pos h1, if_pos (hempty.1 h1)]
  · rw [if_neg h1, if_neg (fun h2 => h1 (hempty.2 h2))]

/-- C27 at the two enumerations `b, a` and `a, b` of a directory, in vertical
mode with recursion. -/
theorem C27_enumeration_order_witness :
    do_ls sample_env false false true (cstr "d")
        (flat_dir [⟨cstr "b", some (stat_with_mode 0o040755)⟩,
          ⟨cstr "a", some (stat_with_mode 0o100644)⟩]) =
      do_ls sample_env false false true (cstr "d")
        (flat_dir [⟨cstr "a", some (stat_with_mode 0o100644)⟩,
          ⟨cstr "b", some (stat_with_mode 0o040755)⟩]) :=
  C27_enumeration_order sample_env false false true (cstr "d") _ _ _ _
    (List.Perm.swap _ _ _) (by decide)

end Ls
